import Mathlib

/-!
Verification of the documentation-structure extractor (crawler, parser,
miner, deduplicator, formatter).

Strings are modelled as `List Char` (`LC`).  Python dictionaries that map
submodule names to descriptions are modelled as association lists with
Python-dict upsert semantics (`dictInsert`): overwriting keeps the key's
original position, a new key is appended.  Machine text is ASCII in all
concrete inputs considered here; `clean_text`'s whitespace class is modelled
as the ASCII whitespace characters.
-/

abbrev LC := List Char

def toL (s : String) : LC := s.toList

/-! ### Character classes (ASCII, as used by the source) -/

def isAsciiUpper (c : Char) : Bool := 65 ≤ c.toNat && c.toNat ≤ 90

def isAsciiLower (c : Char) : Bool := 97 ≤ c.toNat && c.toNat ≤ 122

def isAsciiAlpha (c : Char) : Bool := isAsciiUpper c || isAsciiLower c

def isAsciiDigit (c : Char) : Bool := 48 ≤ c.toNat && c.toNat ≤ 57

/-- ASCII lowercasing, the effect of Python `str.lower` on ASCII data. -/
def toLowerChar (c : Char) : Char :=
  if h : 65 ≤ c.toNat ∧ c.toNat ≤ 90 then
    ⟨c.val + 32, by
      have hv := c.valid
      have h32 : c.val.toNat < 4294967296 := c.val.toNat_lt_size
      have h2' : c.val.toNat ≤ 90 := h.2
      have hsz : (32 : UInt32).toNat = 32 := rfl
      have hmod : (c.val.toNat + 32) % UInt32.size = c.val.toNat + 32 :=
        Nat.mod_eq_of_lt (by have hs : UInt32.size = 4294967296 := rfl; omega)
      have : (c.val + 32).toNat = c.val.toNat + 32 := by
        rw [UInt32.toNat_add, hsz, hmod]
      rw [UInt32.isValidChar, Nat.isValidChar] at *
      rw [this]
      left; omega⟩
  else c

def toLowerL (l : LC) : LC := l.map toLowerChar

/-- Python `sub in text` on strings: substring containment. -/
def containsSub (hay needle : LC) : Bool :=
  match hay with
  | [] => needle = []
  | _ :: t => needle.isPrefixOf hay || containsSub t needle

/-- Whitespace class of the regex `\s` restricted to ASCII. -/
def isSpaceChar (c : Char) : Bool :=
  c = ' ' || c = '\t' || c = '\n' || c = '\r' || c = '\x0b' || c = '\x0c'

/-- `clean_text` (src/modules/utils.py): collapse every run of whitespace to a
single space, then strip leading/trailing whitespace.  `None` maps to `\"\"`,
which is subsumed by the empty list here. -/
def clean_text (l : LC) : LC :=
  stripSpaces (squeeze (l.map (fun c => if isSpaceChar c then ' ' else c)))
where
  squeeze : LC → LC
    | [] => []
    | [c] => [c]
    | c1 :: c2 :: t =>
      if c1 = ' ' ∧ c2 = ' ' then squeeze (c2 :: t)
      else c1 :: squeeze (c2 :: t)
  stripSpaces (l : LC) : LC :=
    ((l.dropWhile (fun c => c = ' ')).reverse.dropWhile (fun c => c = ' ')).reverse

/-- Python `str.replace(old, '', 1)`: remove the first occurrence of the
substring. -/
def replaceFirst (hay needle : LC) : LC :=
  if needle = [] then hay
  else match hay with
  | [] => []
  | c :: t =>
    if needle.isPrefixOf hay then hay.drop needle.length
    else c :: replaceFirst t needle

/-- Python `str.replace(old, '')` with no count: remove every leftmost,
non-overlapping occurrence of the substring.  Fuel-indexed so that the
kernel can evaluate it; `hay.length + 1` fuel always suffices because each
step consumes at least one character of a nonempty needle's match or moves
past one character. -/
def replaceAllGo (needle : LC) : Nat → LC → LC
  | 0, l => l
  | _ + 1, [] => []
  | f + 1, c :: t =>
    if needle.isPrefixOf (c :: t) then replaceAllGo needle f ((c :: t).drop needle.length)
    else c :: replaceAllGo needle f t

def replaceAll (hay needle : LC) : LC :=
  if needle = [] then hay else replaceAllGo needle (hay.length + 1) hay

/-! ### URL utilities (src/modules/utils.py), over a model of CPython
`urllib.parse.urlsplit` / `urlunsplit` (3.11, Lib/urllib/parse.py).  The
model covers the core splitting algorithm — scheme detection (with
lowercasing), authority ("netloc") splitting with the unbalanced-bracket
`ValueError`, fragment and query splitting — and reassembly with 3.11's
`uses_netloc`-conditioned authority marker.  CPython's control-character
sanitization and internationalized-hostname checks are omitted; they do
not affect any input considered here.  `urlparse`'s extra path/params
split is the identity once `urlunparse` rejoins them, so it is not
modelled separately. -/

def schemeChar (c : Char) : Bool :=
  isAsciiAlpha c || isAsciiDigit c || c = '+' || c = '-' || c = '.'

/-- Split a list at the first occurrence of `t`; `none` when absent. -/
def splitFirst (t : Char) : LC → Option (LC × LC)
  | [] => none
  | c :: cs =>
    if c = t then some ([], cs)
    else (splitFirst t cs).map (fun p => (c :: p.1, p.2))

def headAlpha : LC → Bool
  | [] => false
  | c :: _ => isAsciiAlpha c

/-- Scheme detection of `urlsplit`: the prefix before the first `':'` is a
scheme iff it is nonempty, starts with an ASCII letter, and consists of
scheme characters; the scheme is lowercased. -/
def detectScheme (u : LC) : LC × LC :=
  match splitFirst ':' u with
  | none => ([], u)
  | some (pre, rest) =>
    if pre ≠ [] ∧ headAlpha pre ∧ pre.all schemeChar then (toLowerL pre, rest)
    else ([], u)

structure UrlSplit where
  scheme : LC
  netloc : LC
  path : LC
  query : LC
  fragment : LC
deriving DecidableEq

def netlocDelim (c : Char) : Bool := c = '/' || c = '?' || c = '#'

/-- Authority split of `urlsplit`: when the remainder starts with `//`, the
netloc is everything up to the next `/`, `?` or `#`. -/
def splitNetloc (rest : LC) : LC × LC :=
  if rest.take 2 = ['/', '/'] then
    ((rest.drop 2).takeWhile (fun c => !netlocDelim c),
     (rest.drop 2).dropWhile (fun c => !netlocDelim c))
  else ([], rest)

/-- `url.partition('#')`: split at the first `#` (fragment). -/
def splitFrag (l : LC) : LC × LC :=
  match splitFirst '#' l with
  | some p => p
  | none => (l, [])

/-- `url.split('?', 1)`: split at the first `?` (query). -/
def splitQuery (l : LC) : LC × LC :=
  match splitFirst '?' l with
  | some p => p
  | none => (l, [])

/-- Stages of `urlsplit` on an input `u`, named for reuse in proofs. -/
def usScheme (u : LC) : LC := (detectScheme u).1

def usRest (u : LC) : LC := (detectScheme u).2

def usNetloc (u : LC) : LC := (splitNetloc (usRest u)).1

def usRest2 (u : LC) : LC := (splitNetloc (usRest u)).2

def usPre (u : LC) : LC := (splitFrag (usRest2 u)).1

def usFrag (u : LC) : LC := (splitFrag (usRest2 u)).2

def usPath (u : LC) : LC := (splitQuery (usPre u)).1

def usQuery (u : LC) : LC := (splitQuery (usPre u)).2

/-- Core of CPython `urlsplit`; `none` models the `ValueError` raised on an
unbalanced `[`/`]` in the authority component. -/
def urlsplit (u : LC) : Option UrlSplit :=
  if ('[' ∈ usNetloc u ∧ ']' ∉ usNetloc u) ∨ (']' ∈ usNetloc u ∧ '[' ∉ usNetloc u) then none
  else some ⟨usScheme u, usNetloc u, usPath u, usQuery u, usFrag u⟩

/-- The `uses_netloc` scheme list of urllib.parse (Python 3.11). -/
def uses_netloc : List LC :=
  [[], toL "ftp", toL "http", toL "gopher", toL "nntp", toL "telnet",
   toL "imap", toL "wais", toL "file", toL "mms", toL "https", toL "shttp",
   toL "snews", toL "prospero", toL "rtsp", toL "rtspu", toL "rsync",
   toL "svn", toL "svn+ssh", toL "sftp", toL "nfs", toL "git", toL "git+ssh",
   toL "ws", toL "wss"]

/-- Condition under which `urlunsplit` re-emits an authority marker `//`
(Python 3.11: `netloc or (scheme and scheme in uses_netloc and
url[:2] != '//')`). -/
def unsplitCond (r : UrlSplit) : Prop :=
  r.netloc ≠ [] ∨
    (r.scheme ≠ [] ∧ r.scheme ∈ uses_netloc ∧ ¬ (r.path.take 2 = ['/', '/']))

instance (r : UrlSplit) : Decidable (unsplitCond r) := by
  unfold unsplitCond
  infer_instance

/-- The path with the leading slash that `urlunsplit` inserts after an
authority when the path is nonempty and does not already start with `/`. -/
def prependedPath (r : UrlSplit) : LC :=
  if r.path ≠ [] ∧ r.path.head? ≠ some '/' then '/' :: r.path else r.path

/-- Core of CPython `urlunsplit` (3.11). -/
def urlunsplit (r : UrlSplit) : LC :=
  let u1 :=
    if unsplitCond r then ['/', '/'] ++ r.netloc ++ prependedPath r
    else r.path
  let u2 := if r.scheme ≠ [] then r.scheme ++ ':' :: u1 else u1
  let u3 := if r.query ≠ [] then u2 ++ '?' :: r.query else u2
  if r.fragment ≠ [] then u3 ++ '#' :: r.fragment else u3

/-- `normalize_url` (src/modules/utils.py): parse, clear the fragment,
reassemble; on a parse error return the input unchanged. -/
def normalize_url (u : LC) : LC :=
  match urlsplit u with
  | none => u
  | some r => urlunsplit ⟨r.scheme, r.netloc, r.path, r.query, []⟩

/-- `is_valid_url` (src/modules/utils.py): true iff the parse yields both a
scheme and a netloc (Python truthiness: nonempty strings). -/
def is_valid_url (u : LC) : Bool :=
  match urlsplit u with
  | none => false
  | some r => r.scheme ≠ [] && r.netloc ≠ []

/-- The `?` part that `urlunsplit` re-attaches: nothing for an empty query. -/
def qpart (q : LC) : LC := if q = [] then [] else '?' :: q

/-- Properties of a parse result that make `urlunsplit` a right inverse of
`urlsplit`.  They hold for every successful parse. -/
structure GoodSplit (r : UrlSplit) : Prop where
  scheme_ok : r.scheme = [] ∨ (r.scheme ≠ [] ∧ headAlpha r.scheme = true ∧
    r.scheme.all schemeChar = true ∧ toLowerL r.scheme = r.scheme)
  netloc_no_delim : ∀ c ∈ r.netloc, netlocDelim c = false
  netloc_brackets : ¬ (('[' ∈ r.netloc ∧ ']' ∉ r.netloc) ∨ (']' ∈ r.netloc ∧ '[' ∉ r.netloc))
  path_no_hash : ∀ c ∈ r.path, c ≠ '#'
  path_no_q : ∀ c ∈ r.path, c ≠ '?'
  query_no_hash : ∀ c ∈ r.query, c ≠ '#'
  path_slash : r.netloc ≠ [] → r.path = [] ∨ r.path.head? = some '/'
  path_noscheme : r.scheme = [] → r.netloc = [] → ¬ (r.path.take 2 = ['/', '/']) →
    detectScheme (r.path ++ qpart r.query) = ([], r.path ++ qpart r.query)

/-- The body rebuilt by `urlunsplit` after the optional scheme. -/
def unsplitBody (r : UrlSplit) : LC :=
  (if unsplitCond r then ['/', '/'] ++ r.netloc ++ prependedPath r
   else r.path) ++ qpart r.query

/-- The split that reparsing `urlunsplit r` produces: identical to `r`
(minus fragment) except that in the authority branch the reassembled path
carries the inserted leading slash. -/
def reparsed (r : UrlSplit) : UrlSplit :=
  ⟨r.scheme, r.netloc, if unsplitCond r then prependedPath r else r.path, r.query, []⟩

/-! ### HTML document model

A parsed HTML tree in the sense of BeautifulSoup: element nodes carry a tag
name, attributes and children; text nodes carry a string.  The extractors
below are translated from src/modules/parser.py against this model; the
claims' concrete inputs are embedded as the trees that parsing their HTML
produces.  `find_all` returns matching descendants in document order
(the source's extra sort by `sourceline` is the identity on parser output,
whose source lines are nondecreasing in document order, by stability of
Python's sort). -/

inductive Node where
  | elem (tag : LC) (attrs : List (LC × LC)) (children : List Node)
  | text (s : LC)

def Node.childrenL : Node → List Node
  | .elem _ _ cs => cs
  | .text _ => []

def Node.tag? : Node → Option LC
  | .elem t _ _ => some t
  | .text _ => none

def getAttr : Node → LC → Option LC
  | .elem _ attrs _, k => (attrs.find? (fun p => p.1 = k)).map Prod.snd
  | .text _, _ => none

/-- Split an attribute value on ASCII whitespace, as an HTML parser does for
the multi-valued `class` attribute. -/
def splitWs (l : LC) : List LC :=
  go (l.map (fun c => if isSpaceChar c then ' ' else c))
where
  go : LC → List LC
    | [] => []
    | c :: t =>
      if c = ' ' then go t
      else
        match go t with
        | [] => [[c]]
        | w :: ws =>
          if t.head? = some ' ' then [c] :: w :: ws else (c :: w) :: ws

def classTokens (n : Node) : List LC :=
  match getAttr n (toL "class") with
  | none => []
  | some v => splitWs v

/-- BS4 `class_=lambda c: c and any(x in str(c).lower() for x in kws)`:
the callable is tried against each class token. -/
def classMatchAny (kws : List LC) (n : Node) : Bool :=
  (classTokens n).any (fun tok => kws.any (fun kw => containsSub (toLowerL tok) kw))

def isElemOf (tags : List LC) : Node → Bool
  | .elem t _ _ => tags.any (fun x => x = t)
  | .text _ => false

mutual
def getText : Node → LC
  | .text s => s
  | .elem _ _ cs => getTextList cs

def getTextList : List Node → LC
  | [] => []
  | n :: ns => getText n ++ getTextList ns
end

mutual
def findAllNode (p : Node → Bool) : Node → List Node
  | .text _ => []
  | .elem t a cs =>
    (if p (.elem t a cs) then [Node.elem t a cs] else []) ++ findAllList p cs

def findAllList (p : Node → Bool) : List Node → List Node
  | [] => []
  | n :: ns => findAllNode p n ++ findAllList p ns
end

/-- `el.find_all(...)`: matching descendants of `el` (excluding `el`
itself) in document order. -/
def findAll (p : Node → Bool) (n : Node) : List Node :=
  findAllList p n.childrenL

/-- `el.find(...)`: first matching descendant. -/
def findFirst (p : Node → Bool) (n : Node) : Option Node :=
  (findAll p n).head?

mutual
/-- Matching descendants paired with their following siblings (for
`next_sibling` scans). -/
def occSibNode (p : Node → Bool) : Node → List Node → List (Node × List Node)
  | .text _, _ => []
  | .elem t a cs, sibs =>
    (if p (.elem t a cs) then [(Node.elem t a cs, sibs)] else []) ++ occSibList p cs

def occSibList (p : Node → Bool) : List Node → List (Node × List Node)
  | [] => []
  | n :: ns => occSibNode p n ns ++ occSibList p ns
end

mutual
def preorder : Node → List Node
  | .text s => [Node.text s]
  | .elem t a cs => Node.elem t a cs :: preorderList cs

def preorderList : List Node → List Node
  | [] => []
  | n :: ns => preorder n ++ preorderList ns
end

mutual
/-- Matching descendants paired with the document-order continuation after
them (their own subtree first), for `find_next` scans.  The second argument
is the continuation after the current node's subtree. -/
def occKNode (p : Node → Bool) : Node → List Node → List (Node × List Node)
  | .text _, _ => []
  | .elem t a cs, k =>
    (if p (.elem t a cs) then [(Node.elem t a cs, preorderList cs ++ k)] else []) ++
      occKList p cs k

def occKList (p : Node → Bool) : List Node → List Node → List (Node × List Node)
  | [], _ => []
  | n :: ns, k => occKNode p n (preorderList ns ++ k) ++ occKList p ns k
end

/-- `find_all` variant that also reports the continuation after each match. -/
def occK (p : Node → Bool) (n : Node) (k : List Node) : List (Node × List Node) :=
  occKList p n.childrenL k

/-- `x.find_next(tag)`: first element with the given tag in the
document-order continuation. -/
def findNextTag (t : LC) (k : List Node) : Option Node :=
  (k.filter (isElemOf [t])).head?

mutual
/-- Matching descendants paired with their parent element. -/
def occPNode (p : Node → Bool) : Node → Option Node → List (Node × Option Node)
  | .text _, _ => []
  | .elem t a cs, par =>
    (if p (.elem t a cs) then [(Node.elem t a cs, par)] else []) ++
      occPList p cs (some (.elem t a cs))

def occPList (p : Node → Bool) : List Node → Option Node → List (Node × Option Node)
  | [], _ => []
  | n :: ns, par => occPNode p n par ++ occPList p ns par
end

/-! ### Module records and Python-dict upsert -/

structure ModuleR where
  module : LC
  Description : LC
  Submodules : List (LC × LC)
deriving DecidableEq, Inhabited

/-- Python-dict assignment `d[k] = v`: overwrite in place (keeping the key's
position) or append a new key. -/
def dictInsert : List (LC × LC) → LC → LC → List (LC × LC)
  | [], k, v => [(k, v)]
  | (k', v') :: t, k, v => if k' = k then (k, v) :: t else (k', v') :: dictInsert t k v

def dictKeys (m : List (LC × LC)) : List LC := m.map Prod.fst

def dictGet? (m : List (LC × LC)) (k : LC) : Option LC :=
  (m.find? (fun p => p.1 = k)).map Prod.snd

/-! ### Heading-hierarchy extractor (Parser.extract_modules_from_headings) -/

def headingLevel (n : Node) : Nat :=
  match n.tag? with
  | some t =>
    if t = toL "h1" then 1 else if t = toL "h2" then 2 else if t = toL "h3" then 3
    else if t = toL "h4" then 4 else if t = toL "h5" then 5 else if t = toL "h6" then 6
    else if classMatchAny [toL "title"] n then 1
    else if classMatchAny [toL "subtitle"] n then 2
    else if classMatchAny [toL "section"] n then 3
    else 3
  | none => 3

def headingTagNames : List LC :=
  [toL "h1", toL "h2", toL "h3", toL "h4", toL "h5", toL "h6"]

/-- The headings scanned by the extractor: all `h1`–`h6`, else `div`/`span`
elements whose class hints at a title/heading/header/module/section; each
paired with its following siblings. -/
def headingOccs (content : Node) : List (Node × List Node) :=
  match occSibList (isElemOf headingTagNames) content.childrenL with
  | [] =>
    occSibList (fun n => isElemOf [toL "div", toL "span"] n &&
      classMatchAny [toL "title", toL "heading", toL "header", toL "module", toL "section"] n)
      content.childrenL
  | h :: hs => h :: hs

def isContentTag (t : LC) : Bool :=
  t = toL "p" || t = toL "div" || t = toL "span" || t = toL "section"

/-- Description scan over following siblings: stop at the next `h*` element,
collect text of p/div/span/section elements and of bare text nodes, truncate
past 500 characters with an ellipsis. -/
def scrapeDescRaw : List Node → LC → LC
  | [], acc => acc
  | .elem t _ cs :: rest, acc =>
    if t.head? = some 'h' then acc
    else
      let acc' := if isContentTag t then acc ++ getTextList cs ++ [' '] else acc
      if acc'.length > 500 then acc'.take 500 ++ toL "..."
      else scrapeDescRaw rest acc'
  | .text s :: rest, acc =>
    let acc' := if s ≠ [] then acc ++ s ++ [' '] else acc
    if acc'.length > 500 then acc'.take 500 ++ toL "..."
    else scrapeDescRaw rest acc'

def addSubAt (ms : List ModuleR) (i : Nat) (k v : LC) : List ModuleR :=
  match ms.get? i with
  | some m => ms.set i { m with Submodules := dictInsert m.Submodules k v }
  | none => ms

/-- State of the heading walk: the modules list, the index of the current
top-level module, and the heading stack.  A stack frame holds `some i` when
it aliases `modules[i]` (the frames made for levels ≤ 2) and `none` for the
detached dictionaries pushed for deeper headings (Python pushes a fresh
dict that is never added to `modules`, so writes into it are lost). -/
structure HeadState where
  modules : List ModuleR
  currentIdx : Option Nat
  stack : List (Nat × Option Nat)

def headStep (st : HeadState) (occ : Node × List Node) : HeadState :=
  let htext := clean_text (getText occ.1)
  if htext = [] ∨ htext.length > 100 then st
  else
    let lvl := headingLevel occ.1
    let desc := clean_text (scrapeDescRaw occ.2 [])
    if lvl ≤ 2 then
      { modules := st.modules ++ [⟨htext, desc, []⟩],
        currentIdx := some st.modules.length,
        stack := [(lvl, some st.modules.length)] }
    else
      match st.currentIdx with
      | none => st
      | some ci =>
        let stack' := st.stack.dropWhile (fun f => decide (lvl ≤ f.1))
        let target : Option Nat :=
          match stack'.head? with
          | none => some ci
          | some f => f.2
        let modules' :=
          match target with
          | some i => addSubAt st.modules i htext desc
          | none => st.modules
        { modules := modules', currentIdx := st.currentIdx, stack := (lvl, none) :: stack' }

def extract_modules_from_headings (content : Node) : List ModuleR :=
  ((headingOccs content).foldl headStep ⟨[], none, []⟩).modules

/-- The heading-pass input of the spec's end-to-end example, as parsed:
`<h1>Widgets</h1><p>Desc.</p><h3>Gadget</h3><p>Sub.</p>`. -/
def c7body : Node :=
  .elem (toL "body") []
    [.elem (toL "h1") [] [.text (toL "Widgets")],
     .elem (toL "p") [] [.text (toL "Desc.")],
     .elem (toL "h3") [] [.text (toL "Gadget")],
     .elem (toL "p") [] [.text (toL "Sub.")]]

/-! ### List/nested-list extractor (Parser.extract_modules_from_lists) -/

/-- Split at the first occurrence of a multi-character separator. -/
def splitOnceSub (hay sep : LC) : Option (LC × LC) :=
  if sep.isPrefixOf hay then some ([], hay.drop sep.length)
  else
    match hay with
    | [] => none
    | c :: t => (splitOnceSub t sep).map (fun p => (c :: p.1, p.2))

/-- Name from a link: the cleaned anchor text, overridden by the cleaned
`title` attribute when that is present, nonempty and different. -/
def nameFromLink (link : Node) : LC :=
  let n := clean_text (getText link)
  match getAttr link (toL "title") with
  | some tv =>
    if tv ≠ [] then
      let tc := clean_text tv
      if tc ≠ [] ∧ tc ≠ n then tc else n
    else n
  | none => n

def itemModuleName (item : Node) (itemText : LC) : LC :=
  match findFirst (isElemOf [toL "a"]) item with
  | some link => nameFromLink link
  | none =>
    match findFirst (fun n =>
        isElemOf [toL "strong", toL "b", toL "em", toL "i", toL "span"] n &&
        classMatchAny [toL "title", toL "name", toL "module"] n) item with
    | some emph => clean_text (getText emph)
    | none =>
      match splitFirst ':' itemText with
      | some (pre, _) => if pre.length < 50 then clean_text pre else itemText
      | none => itemText

def itemModuleDesc (item : Node) (itemText name : LC) : LC :=
  match findFirst (fun n => isElemOf [toL "p", toL "div", toL "span"] n &&
      classMatchAny [toL "desc", toL "summary", toL "info"] n) item with
  | some d => clean_text (getText d)
  | none =>
    if name ≠ [] ∧ name ≠ itemText then
      match splitFirst ':' itemText with
      | some (_, post) => clean_text post
      | none =>
        match splitOnceSub itemText (toL " - ") with
        | some (_, post) => clean_text post
        | none => clean_text (replaceFirst itemText name)
    else []

def processNested (subs : List (LC × LC)) (ni : Node) : List (LC × LC) :=
  let st := clean_text (getText ni)
  if st = [] ∨ st.length > 100 then subs
  else
    let name :=
      match findFirst (isElemOf [toL "a"]) ni with
      | some link => nameFromLink link
      | none =>
        match findFirst (isElemOf [toL "strong", toL "b", toL "em", toL "i"]) ni with
        | some emph => clean_text (getText emph)
        | none =>
          match splitFirst ':' st with
          | some (pre, _) => if pre.length < 50 then clean_text pre else st
          | none => st
    let desc :=
      match findFirst (fun n => isElemOf [toL "p", toL "div", toL "span"] n &&
          classMatchAny [toL "desc", toL "summary", toL "info"] n) ni with
      | some d => clean_text (getText d)
      | none =>
        if name ≠ [] ∧ name ≠ st then
          match splitFirst ':' st with
          | some (_, post) => clean_text post
          | none =>
            match splitOnceSub st (toL " - ") with
            | some (_, post) => clean_text post
            | none => clean_text (replaceFirst st name)
        else []
    if name ≠ [] ∧ ¬ (subs.any (fun p => p.1 = name)) then subs ++ [(name, desc)] else subs

def itemSubmodules (item : Node) : List (LC × LC) :=
  (findAll (fun n => isElemOf [toL "ul", toL "ol", toL "div"] n &&
      classMatchAny [toL "submenu", toL "children", toL "nested", toL "sub"] n) item).foldl
    (fun subs nl =>
      (findAll (isElemOf [toL "li", toL "a", toL "div", toL "span"]) nl).foldl processNested subs)
    []

def processItem (acc : List ModuleR) (item : Node) : List ModuleR :=
  let itemText := clean_text (getText item)
  if itemText = [] ∨ itemText.length > 200 then acc
  else
    let name := itemModuleName item itemText
    let desc := itemModuleDesc item itemText name
    let subs := itemSubmodules item
    if name ≠ [] ∧ (desc ≠ [] ∨ subs ≠ []) then acc ++ [⟨name, desc, subs⟩] else acc

def processList (acc : List ModuleR) (le : Node) : List ModuleR :=
  let items :=
    match le.childrenL.filter (isElemOf [toL "li"]) with
    | [] => findAll (fun n => isElemOf [toL "div", toL "a", toL "span"] n &&
        classMatchAny [toL "item", toL "entry", toL "module", toL "link"] n) le
    | i :: is => i :: is
  if items.length < 2 then acc
  else if items.length > 50 ∧ ¬ classMatchAny [toL "module", toL "api", toL "doc", toL "toc"] le then acc
  else items.foldl processItem acc

def extract_modules_from_lists (content : Node) : List ModuleR :=
  let lists :=
    match findAll (fun n =>
        isElemOf [toL "ul", toL "ol", toL "nav", toL "menu", toL "div"] n &&
        classMatchAny [toL "menu", toL "nav", toL "list", toL "toc", toL "index", toL "modules"] n)
        content with
    | [] => findAll (isElemOf [toL "ul", toL "ol"]) content
    | l :: ls => l :: ls
  lists.foldl processList []

/-- The list-pass input of the spec's end-to-end example, as parsed:
`<ul><li><a title="X desc">X</a></li><li><a>Y</a>: does stuff</li></ul>`. -/
def c3body : Node :=
  .elem (toL "body") []
    [.elem (toL "ul") []
      [.elem (toL "li") [] [.elem (toL "a") [(toL "title", toL "X desc")] [.text (toL "X")]],
       .elem (toL "li") [] [.elem (toL "a") [] [.text (toL "Y")], .text (toL ": does stuff")]]]

/-! ### Aggressive submodule miner (Parser.find_submodules_aggressively) -/

def submodule_keywords : List LC :=
  [toL "feature", toL "tool", toL "setting", toL "option", toL "preference", toL "configuration",
   toL "function", toL "method", toL "property", toL "attribute", toL "parameter",
   toL "api", toL "endpoint", toL "service", toL "utility", toL "helper",
   toL "component", toL "element", toL "widget", toL "control",
   toL "page", toL "screen", toL "view", toL "section", toL "panel",
   toL "create", toL "edit", toL "delete", toL "manage", toL "configure",
   toL "upload", toL "download", toL "share", toL "publish", toL "post",
   toL "privacy", toL "security", toL "permission", toL "access", toL "role",
   toL "notification", toL "alert", toL "message", toL "comment", toL "feedback",
   toL "profile", toL "account", toL "user", toL "group", toL "team",
   toL "search", toL "filter", toL "sort", toL "browse", toL "navigate",
   toL "import", toL "export", toL "backup", toL "restore", toL "sync",
   toL "report", toL "analytics", toL "statistics", toL "metric", toL "dashboard",
   toL "schedule", toL "calendar", toL "event", toL "reminder", toL "notification",
   toL "payment", toL "subscription", toL "billing", toL "invoice", toL "transaction",
   toL "integration", toL "connection", toL "plugin", toL "extension", toL "add-on"]

def keywordGate (txt : LC) : Bool := submodule_keywords.any (fun kw => containsSub txt kw)

def sepChar (c : Char) : Bool := isSpaceChar c || c = '-' || c = '_'

/-- Occurrence of `pre`, an optional single separator from `[\s\-_]`, then
`post` (the shape of the compiled pattern `(?:sub|child)[\s\-_]?modules?`,
whose trailing `s?` never matters for a search). -/
def hasSeqSep (pre post : LC) : LC → Bool
  | [] => false
  | c :: t =>
    (pre.isPrefixOf (c :: t) &&
      (post.isPrefixOf ((c :: t).drop pre.length) ||
        (match (c :: t).drop pre.length with
         | d :: r => sepChar d && post.isPrefixOf r
         | [] => false))) ||
    hasSeqSep pre post t

/-- `self.submodule_regex.search(text)` on lowercase text: each alternative
`stems?` is found iff its stem occurs; the first and last patterns need the
separator/hyphen treatment. -/
def submoduleRegexSearch (txt : LC) : Bool :=
  hasSeqSep (toL "sub") (toL "module") txt ||
  hasSeqSep (toL "child") (toL "module") txt ||
  [toL "component", toL "feature", toL "function", toL "method", toL "propertie",
   toL "attribute", toL "parameter", toL "option", toL "setting", toL "configuration",
   toL "api", toL "endpoint", toL "service", toL "utilitie", toL "helper",
   toL "tool", toL "plugin", toL "extension"].any (fun st => containsSub txt st) ||
  containsSub txt (toL "addon") || containsSub txt (toL "add-on")

def wordChar (c : Char) : Bool := isAsciiAlpha c || isAsciiDigit c || c = '_'

def toUpperChar (c : Char) : Char :=
  if h : 97 ≤ c.toNat ∧ c.toNat ≤ 122 then
    ⟨c.val - 32, by
      have hv := c.valid
      have h32 : c.val.toNat < 4294967296 := c.val.toNat_lt_size
      have h1' : 97 ≤ c.val.toNat := h.1
      have hsz : (32 : UInt32).toNat = 32 := rfl
      have hsub : (c.val - 32).toNat = c.val.toNat - 32 := by
        rw [UInt32.toNat_sub_of_le, hsz]
        show (32 : UInt32).toNat ≤ c.val.toNat
        rw [hsz]; omega
      rw [UInt32.isValidChar, Nat.isValidChar] at *
      rw [hsub]
      have h2' : c.val.toNat ≤ 122 := h.2
      left; omega⟩
  else c

/-- Python `str.capitalize` on an all-lowercase ASCII word. -/
def capitalizeL : LC → LC
  | [] => []
  | c :: t => toUpperChar c :: t

/-- Non-overlapping matches of `{kw}\s+([a-zA-Z0-9_]+)` (IGNORECASE),
returning the captured identifiers in order.  Fuel-indexed on the text
length for kernel evaluation. -/
def findIdMatches (kw : LC) : Nat → LC → List LC
  | 0, _ => []
  | _ + 1, [] => []
  | f + 1, c :: t =>
    if toLowerL ((c :: t).take kw.length) = kw then
      let rest := (c :: t).drop kw.length
      let sp := rest.takeWhile isSpaceChar
      let rest2 := rest.dropWhile isSpaceChar
      let w := rest2.takeWhile wordChar
      if sp ≠ [] ∧ w ≠ [] then w :: findIdMatches kw f (rest2.drop w.length)
      else findIdMatches kw f t
    else findIdMatches kw f t

/-- Pass 1: tables related to the module; rows after the header give
(first cell, second cell) pairs. -/
def minePass1 (content : Node) (mname : LC) : List (LC × LC) :=
  (findAll (isElemOf [toL "table"]) content).foldl (fun acc tbl =>
    let ttext := toLowerL (getText tbl)
    if containsSub ttext (toLowerL mname) || keywordGate ttext then
      ((findAll (isElemOf [toL "tr"]) tbl).drop 1).foldl (fun acc2 row =>
        match findAll (isElemOf [toL "td", toL "th"]) row with
        | c0 :: c1 :: _ =>
          let sn := clean_text (getText c0)
          let sd := clean_text (getText c1)
          if sn ≠ [] ∧ sn.length < 100 ∧ sn ≠ mname then acc2 ++ [(sn, sd)] else acc2
        | _ => acc2) acc
    else acc) []

/-- Pass 2: definition lists; each `dt` with the next `dd` in document
order. -/
def minePass2 (content : Node) (mname : LC) : List (LC × LC) :=
  (occK (isElemOf [toL "dl"]) content []).foldl (fun acc dlK =>
    let dtext := toLowerL (getText dlK.1)
    if containsSub dtext (toLowerL mname) || keywordGate dtext then
      (occKNode (isElemOf [toL "dt"]) dlK.1 dlK.2).foldl (fun acc2 dtK =>
        let sn := clean_text (getText dtK.1)
        let sd := match findNextTag (toL "dd") dtK.2 with
          | some dd => clean_text (getText dd)
          | none => []
        if sn ≠ [] ∧ sn.length < 100 ∧ sn ≠ mname then acc2 ++ [(sn, sd)] else acc2) acc
    else acc) []

/-- Pass 3: class-hinted sections; their `h3`–`h6` headings with the next
paragraph as description. -/
def minePass3 (content : Node) (mname : LC) : List (LC × LC) :=
  (occK (fun n => isElemOf [toL "div", toL "section"] n &&
      classMatchAny [toL "api", toL "method", toL "function", toL "property",
        toL "feature", toL "tool", toL "setting"] n) content []).foldl (fun acc secK =>
    let stext := toLowerL (getText secK.1)
    if containsSub stext (toLowerL mname) || submoduleRegexSearch stext || keywordGate stext then
      (occKNode (isElemOf [toL "h3", toL "h4", toL "h5", toL "h6"]) secK.1 secK.2).foldl
        (fun acc2 hK =>
          let sn := clean_text (getText hK.1)
          let sd := match findNextTag (toL "p") hK.2 with
            | some pe => clean_text (getText pe)
            | none => []
          if sn ≠ [] ∧ sn.length < 100 ∧ sn ≠ mname then acc2 ++ [(sn, sd)] else acc2) acc
    else acc) []

/-- Pass 4: generic lists; colon/dash-split or bold/link-derived pairs with
a default description when no structure is found. -/
def minePass4 (content : Node) (mname : LC) : List (LC × LC) :=
  (findAll (isElemOf [toL "ul", toL "ol"]) content).foldl (fun acc le =>
    let ltext := toLowerL (getText le)
    if containsSub ltext (toLowerL mname) || keywordGate ltext then
      (findAll (isElemOf [toL "li"]) le).foldl (fun acc2 item =>
        let itemText := clean_text (getText item)
        let sn_sd : LC × LC :=
          match splitFirst ':' itemText with
          | some (pre, post) => (clean_text pre, clean_text post)
          | none =>
            match splitOnceSub itemText (toL " - ") with
            | some (pre, post) => (clean_text pre, clean_text post)
            | none =>
              match
                (match findFirst (isElemOf [toL "strong"]) item with
                 | some st => some st
                 | none => findFirst (isElemOf [toL "b"]) item) with
              | some strong =>
                let sn := clean_text (getText strong)
                (sn, clean_text (replaceAll itemText sn))
              | none =>
                match findFirst (isElemOf [toL "a"]) item with
                | some link =>
                  let sn := clean_text (getText link)
                  (sn, clean_text (replaceAll itemText sn))
                | none => (itemText, toL "Feature or setting in " ++ mname)
        if sn_sd.1 ≠ [] ∧ sn_sd.1.length < 100 ∧ sn_sd.1 ≠ mname then acc2 ++ [sn_sd] else acc2)
        acc
    else acc) []

/-- Pass 5: code blocks; `{keyword}\s+(identifier)` matches. -/
def minePass5 (content : Node) (mname : LC) : List (LC × LC) :=
  (findAll (isElemOf [toL "pre", toL "code"]) content).foldl (fun acc cb =>
    let codeText := getText cb
    [toL "function", toL "method", toL "class", toL "property", toL "attribute",
     toL "parameter", toL "option", toL "setting", toL "feature"].foldl (fun acc2 kw =>
      (findIdMatches kw (codeText.length + 1) codeText).foldl (fun acc3 sn =>
        if sn ≠ [] ∧ sn ≠ mname then
          acc3 ++ [(sn, capitalizeL kw ++ toL " in " ++ mname)]
        else acc3) acc2) acc) []

/-- Pass 6: help/FAQ-class sections; every contained link becomes a
submodule. -/
def minePass6 (content : Node) (mname : LC) : List (LC × LC) :=
  (findAll (fun n => isElemOf [toL "div", toL "section"] n &&
      classMatchAny [toL "help", toL "faq", toL "guide", toL "tutorial",
        toL "howto", toL "how-to"] n) content).foldl (fun acc sec =>
    (occPList (isElemOf [toL "a"]) sec.childrenL (some sec)).foldl (fun acc2 lp =>
      let lt := clean_text (getText lp.1)
      if lt ≠ [] ∧ lt.length < 100 ∧ lt ≠ mname then
        let sd :=
          match getAttr lp.1 (toL "title") with
          | some tv =>
            if tv ≠ [] then clean_text tv
            else fallback6 lp.2 lt mname
          | none => fallback6 lp.2 lt mname
        acc2 ++ [(lt, sd)]
      else acc2) acc) []
where
  fallback6 (par : Option Node) (lt mname : LC) : LC :=
    match par with
    | some pe =>
      if pe.tag? = some (toL "p") then clean_text (replaceAll (getText pe) lt)
      else toL "Help topic in " ++ mname
    | none => toL "Help topic in " ++ mname

/-- Pass 7 (only when the module still has no submodules): paragraphs
mentioning the module; emphasized text and links inside them. -/
def minePass7 (content : Node) (mname : LC) : List (LC × LC) :=
  (findAll (isElemOf [toL "p"]) content).foldl (fun acc pe =>
    let ptext := toLowerL (getText pe)
    if containsSub ptext (toLowerL mname) then
      (findAll (isElemOf [toL "strong", toL "b", toL "a", toL "em"]) pe).foldl (fun acc2 el =>
        let sn := clean_text (getText el)
        if sn ≠ [] ∧ sn.length < 100 ∧ sn ≠ mname then
          acc2 ++ [(sn, toL "Feature mentioned in " ++ mname ++ toL " documentation")]
        else acc2) acc
    else acc) []

def applyCands (sub : List (LC × LC)) (cs : List (LC × LC)) : List (LC × LC) :=
  cs.foldl (fun s kv => dictInsert s kv.1 kv.2) sub

def mineModule (content : Node) (m : ModuleR) : ModuleR :=
  if m.Submodules.length > 15 then m
  else
    let s6 := applyCands m.Submodules
      (minePass1 content m.module ++ minePass2 content m.module ++ minePass3 content m.module ++
       minePass4 content m.module ++ minePass5 content m.module ++ minePass6 content m.module)
    let s7 :=
      match s6 with
      | [] => applyCands [] (minePass7 content m.module)
      | x :: xs => x :: xs
    ⟨m.module, m.Description, s7⟩

def find_submodules_aggressively (flag : Bool) (content : Node) (modules : List ModuleR) :
    List ModuleR :=
  if flag then modules.map (mineModule content) else modules

/-- A page whose only structure is a table with a header row and one data
row (`A`, `new`), whose text mentions the module name `mod`. -/
def c1content : Node :=
  .elem (toL "body") []
    [.elem (toL "table") []
      [.elem (toL "tr") [] [.elem (toL "td") [] [.text (toL "mod list")],
                            .elem (toL "td") [] [.text (toL "desc")]],
       .elem (toL "tr") [] [.elem (toL "td") [] [.text (toL "A")],
                            .elem (toL "td") [] [.text (toL "new")]]]]

/-! ### Deduplication pass of Parser.parse_html_batch

The parallel page-parsing collects per-page module lists in completion
order; the final loop over their concatenation keeps the first occurrence
of each module name.  The loop is modelled on an arbitrary concatenation. -/

def parse_html_batch_dedup : List ModuleR → List LC → List ModuleR
  | [], _ => []
  | m :: ms, seen =>
    if m.module ∈ seen then parse_html_batch_dedup ms seen
    else m :: parse_html_batch_dedup ms (m.module :: seen)

def parse_html_batch (allModules : List ModuleR) : List ModuleR :=
  parse_html_batch_dedup allModules []

/-! ### Formatter.format_modules (src/modules/formatter.py)

The input may miss any of the three keys (`module.get(...)` defaults).
Submodule values are strings throughout this repository's pipeline (every
write is `clean_text(...)` or a literal), so they are modelled as strings;
`format_modules` itself performs no `str(...)` coercion and no key
filtering — it only replaces falsy descriptions by the sentinel. -/

structure RawModule where
  moduleKey : Option LC
  descriptionKey : Option LC
  submodulesKey : Option (List (LC × LC))
deriving DecidableEq, Inhabited

def noDescription : LC := toL "No description available"

def format_modules (modules : List RawModule) : List ModuleR :=
  modules.map (fun m =>
    let name := m.moduleKey.getD []
    let desc := m.descriptionKey.getD []
    let subs := m.submodulesKey.getD []
    ⟨name,
     if desc = [] then noDescription else desc,
     subs.map (fun p => (p.1, if p.2 = [] then noDescription else p.2))⟩)

/-! ### Crawler.fetch_url body accumulation (src/modules/crawler.py)

The streaming loop appends decoded chunks and breaks only after the
accumulated length exceeds 300,000, so the result can overshoot the cap by
up to one chunk.  The HTTP transport, headers and the site-specific retry
are outside the model; the loop takes the iterator's chunk sequence. -/

def fetch_url_go : List LC → LC → LC
  | [], acc => acc
  | ch :: rest, acc =>
    let acc' := if ch ≠ [] then acc ++ ch else acc
    if acc'.length > 300000 then acc'
    else fetch_url_go rest acc'

def fetch_url (chunks : List LC) : LC := fetch_url_go chunks []

/-- Length shadow of the accumulation loop. -/
def fetch_len_go : List Nat → Nat → Nat
  | [], acc => acc
  | n :: rest, acc =>
    let acc' := acc + n
    if acc' > 300000 then acc'
    else fetch_len_go rest acc'

/-! ### Crawler.crawl_parallel (src/modules/crawler.py)

The loop over the frontier, with the worker pool's per-batch processing
sequentialized in batch order (one linearization of the concurrent run;
with one worker or a single-entry batch it is exact).  Fetching and link
extraction are parameters: the fetch oracle maps a URL to its body (`none`
for a failed request) and the link oracle maps (url, html) to the links
that `extract_links` would return.  The loop is fuel-indexed. -/

structure CrawlCfg where
  maxDepth : Nat
  maxPages : Nat
  maxWorkers : Nat

structure CrawlSt where
  visited : List LC
  pages : List (LC × LC)
  queue : List (LC × Nat)

structure FetchRes where
  url : LC
  html : Option LC
  links : List LC
  depth : Nat

def process_url (fetch : LC → Option LC) (linksOf : LC → LC → List LC) (cfg : CrawlCfg)
    (st : CrawlSt) (ud : LC × Nat) : CrawlSt × FetchRes :=
  if ud.2 > cfg.maxDepth ∨ ud.1 ∈ st.visited then (st, ⟨ud.1, none, [], ud.2⟩)
  else
    let st' := { st with visited := ud.1 :: st.visited }
    match fetch ud.1 with
    | none => (st', ⟨ud.1, none, [], ud.2⟩)
    | some h =>
      if h = [] then (st', ⟨ud.1, none, [], ud.2⟩)
      else (st', ⟨ud.1, some h, linksOf ud.1 h, ud.2⟩)

def handleResult (cfg : CrawlCfg) (st : CrawlSt) (res : FetchRes) : CrawlSt :=
  match res.html with
  | none => st
  | some h =>
    let st1 := { st with pages := dictInsert st.pages res.url h }
    if res.depth + 1 ≤ cfg.maxDepth then
      res.links.foldl (fun s link =>
        if link ∉ s.visited ∧ s.pages.length < cfg.maxPages then
          { s with queue := s.queue ++ [(link, res.depth + 1)] }
        else s) st1
    else st1

def crawlBatch (fetch : LC → Option LC) (linksOf : LC → LC → List LC) (cfg : CrawlCfg)
    (st : CrawlSt) : CrawlSt :=
  let batch := st.queue.take cfg.maxWorkers
  let st0 := { st with queue := st.queue.drop cfg.maxWorkers }
  batch.foldl (fun s ud =>
    let pr := process_url fetch linksOf cfg s ud
    handleResult cfg pr.1 pr.2) st0

def crawl_loop (fetch : LC → Option LC) (linksOf : LC → LC → List LC) (cfg : CrawlCfg) :
    Nat → CrawlSt → List (LC × LC)
  | 0, st => st.pages
  | fuel + 1, st =>
    if st.queue = [] ∨ st.pages.length ≥ cfg.maxPages then st.pages
    else crawl_loop fetch linksOf cfg fuel (crawlBatch fetch linksOf cfg st)

def crawl_parallel (fetch : LC → Option LC) (linksOf : LC → LC → List LC) (cfg : CrawlCfg)
    (fuel : Nat) (startUrl : LC) : List (LC × LC) :=
  if is_valid_url startUrl then
    crawl_loop fetch linksOf cfg fuel ⟨[], [], [(normalize_url startUrl, 0)]⟩
  else []

/-- A raw module whose submodule mapping holds an empty-string key. -/
def c2raw : RawModule := ⟨some (toL "M"), some (toL "d"), some [([], toL "x")]⟩

/-- Thirty-seven full 8 KiB chunks: the stream the fetch loop would read
for a 303,104-byte body. -/
def c4chunks : List LC := List.replicate 37 (List.replicate 8192 'a')

/-- A document whose only headings are `h3` and `h4`. -/
def c10body : Node :=
  .elem (toL "body") []
    [.elem (toL "h3") [] [.text (toL "Alpha")],
     .elem (toL "h4") [] [.text (toL "Beta")]]

/-! ## Proofs -/

/-! ### Lemmas: characters and lowercasing -/

theorem toLowerChar_toNat {c : Char} (h : 65 ≤ c.toNat ∧ c.toNat ≤ 90) :
    (toLowerChar c).toNat = c.toNat + 32 := by
  unfold toLowerChar
  rw [dif_pos h]
  show (c.val + 32).toNat = c.toNat + 32
  have hsz : (32 : UInt32).toNat = 32 := rfl
  have hc : c.toNat = c.val.toNat := rfl
  have h2 : c.val.toNat ≤ 90 := hc ▸ h.2
  have hmod : (c.val.toNat + 32) % UInt32.size = c.val.toNat + 32 :=
    Nat.mod_eq_of_lt (by have hs : UInt32.size = 4294967296 := rfl; omega)
  rw [UInt32.toNat_add, hsz, hmod, hc]

theorem toLowerChar_eq_of_not {c : Char} (h : ¬ (65 ≤ c.toNat ∧ c.toNat ≤ 90)) :
    toLowerChar c = c := by
  unfold toLowerChar; rw [dif_neg h]

theorem toLowerChar_idem (c : Char) : toLowerChar (toLowerChar c) = toLowerChar c := by
  by_cases h : 65 ≤ c.toNat ∧ c.toNat ≤ 90
  · apply toLowerChar_eq_of_not
    rw [toLowerChar_toNat h]
    omega
  · rw [toLowerChar_eq_of_not h]; exact toLowerChar_eq_of_not h

theorem toLowerChar_alpha {c : Char} (h : isAsciiAlpha c = true) :
    isAsciiAlpha (toLowerChar c) = true := by
  by_cases hu : 65 ≤ c.toNat ∧ c.toNat ≤ 90
  · have ht := toLowerChar_toNat hu
    simp only [isAsciiAlpha, isAsciiUpper, isAsciiLower, Bool.or_eq_true,
      Bool.and_eq_true, decide_eq_true_eq]
    right; omega
  · rw [toLowerChar_eq_of_not hu]; exact h

theorem toLowerChar_scheme {c : Char} (h : schemeChar c = true) :
    schemeChar (toLowerChar c) = true := by
  by_cases hu : 65 ≤ c.toNat ∧ c.toNat ≤ 90
  · have ht := toLowerChar_toNat hu
    simp only [schemeChar, isAsciiAlpha, isAsciiUpper, isAsciiLower, isAsciiDigit,
      Bool.or_eq_true, Bool.and_eq_true, decide_eq_true_eq]
    left; left; left; left; right; omega
  · rw [toLowerChar_eq_of_not hu]; exact h

theorem toLowerL_idem (l : LC) : toLowerL (toLowerL l) = toLowerL l := by
  simp only [toLowerL, List.map_map]
  exact List.map_congr_left (fun c _ => toLowerChar_idem c)

theorem toLowerL_ne_nil {s : LC} (h : s ≠ []) : toLowerL s ≠ [] := by
  cases s with
  | nil => exact absurd rfl h
  | cons c t => simp [toLowerL]

theorem headAlpha_toLowerL {s : LC} (h : headAlpha s = true) :
    headAlpha (toLowerL s) = true := by
  cases s with
  | nil => simpa [headAlpha] using h
  | cons c t => exact toLowerChar_alpha h

theorem all_schemeChar_toLowerL {s : LC} (h : s.all schemeChar = true) :
    (toLowerL s).all schemeChar = true := by
  simp only [toLowerL, List.all_map]
  refine List.all_eq_true.mpr (fun c hc => ?_)
  exact toLowerChar_scheme (List.all_eq_true.mp h c hc)

/-! ### Lemmas: splitFirst and detectScheme -/

theorem splitFirst_none {t : Char} {l : LC} (h : ∀ c ∈ l, c ≠ t) : splitFirst t l = none := by
  induction l with
  | nil => rfl
  | cons c cs ih =>
    simp only [splitFirst]
    rw [if_neg (h c (by simp)), ih (fun x hx => h x (by simp [hx]))]
    rfl

theorem splitFirst_app {t : Char} {l₁ l₂ : LC} (h : ∀ c ∈ l₁, c ≠ t) :
    splitFirst t (l₁ ++ t :: l₂) = some (l₁, l₂) := by
  induction l₁ with
  | nil => simp [splitFirst]
  | cons c cs ih =>
    simp only [List.cons_append, splitFirst]
    rw [if_neg (h c (by simp))]
    simp only [List.append_eq]
    rw [ih (fun x hx => h x (by simp [hx]))]
    rfl

theorem splitFirst_eq {t : Char} {l a b : LC} (h : splitFirst t l = some (a, b)) :
    l = a ++ t :: b ∧ ∀ c ∈ a, c ≠ t := by
  induction l generalizing a with
  | nil => simp [splitFirst] at h
  | cons c cs ih =>
    simp only [splitFirst] at h
    by_cases hc : c = t
    · rw [if_pos hc] at h
      obtain ⟨rfl, rfl⟩ := by simpa using h
      simp [hc]
    · rw [if_neg hc] at h
      match ha : splitFirst t cs with
      | none => rw [ha] at h; simp at h
      | some (a', b') =>
        rw [ha] at h
        simp only [Option.map_some', Option.some_inj] at h
        have h1 : c :: a' = a := congrArg Prod.fst h
        have h2 : b' = b := congrArg Prod.snd h
        subst h1; subst h2
        obtain ⟨h3, h4⟩ := ih ha
        refine ⟨by simp [h3], ?_⟩
        intro x hx
        rcases List.mem_cons.mp hx with rfl | hx'
        · exact hc
        · exact h4 x hx'

theorem splitFirst_none_mem {t : Char} {l : LC} (h : splitFirst t l = none) :
    ∀ c ∈ l, c ≠ t := by
  induction l with
  | nil => simp
  | cons c cs ih =>
    simp only [splitFirst] at h
    by_cases hc : c = t
    · rw [if_pos hc] at h; simp at h
    · rw [if_neg hc] at h
      intro x hx
      rcases List.mem_cons.mp hx with rfl | hx'
      · exact hc
      · refine ih ?_ x hx'
        cases ha : splitFirst t cs
        · rfl
        · rw [ha] at h; simp at h

theorem schemeChar_ne_colon {c : Char} (h : schemeChar c = true) : c ≠ ':' := by
  intro he
  subst he
  revert h; decide

theorem detectScheme_succeed {s r : LC} (hne : s ≠ []) (hha : headAlpha s = true)
    (hsc : s.all schemeChar = true) : detectScheme (s ++ ':' :: r) = (toLowerL s, r) := by
  have hnc : ∀ c ∈ s, c ≠ ':' := fun c hc =>
    schemeChar_ne_colon (List.all_eq_true.mp hsc c hc)
  have happ : splitFirst ':' (s ++ ':' :: r) = some (s, r) := splitFirst_app hnc
  simp [detectScheme, happ, hne, hha, hsc]

theorem detectScheme_not_alpha {u : LC} (h : headAlpha u = false) :
    detectScheme u = ([], u) := by
  rcases hs : splitFirst ':' u with _ | ⟨pre, rest⟩
  · simp [detectScheme, hs]
  · obtain ⟨he, _⟩ := splitFirst_eq hs
    simp only [detectScheme, hs]
    rw [if_neg]
    intro ⟨h1, h2, h3⟩
    cases pre with
    | nil => exact h1 rfl
    | cons c t =>
      rw [he] at h
      simp only [headAlpha, List.cons_append] at h h2
      rw [h] at h2; exact Bool.false_ne_true h2

theorem detectScheme_fail {u : LC} (h : (detectScheme u).1 = []) :
    detectScheme u = ([], u) := by
  rcases hs : splitFirst ':' u with _ | ⟨pre, rest⟩
  · simp [detectScheme, hs]
  · simp only [detectScheme, hs] at h ⊢
    by_cases hc : pre ≠ [] ∧ headAlpha pre = true ∧ pre.all schemeChar = true
    · rw [if_pos hc] at h
      exact absurd h (toLowerL_ne_nil hc.1)
    · rw [if_neg hc]

theorem detectScheme_fail_app {w f : LC} (h : detectScheme (w ++ f) = ([], w ++ f)) :
    detectScheme w = ([], w) := by
  rcases hs : splitFirst ':' w with _ | ⟨pre, rest⟩
  · simp [detectScheme, hs]
  · obtain ⟨he, hnc⟩ := splitFirst_eq hs
    have happ : splitFirst ':' (w ++ f) = some (pre, rest ++ f) := by
      rw [he, List.append_assoc, List.cons_append]
      exact splitFirst_app hnc
    simp only [detectScheme, hs, happ] at h ⊢
    rw [if_neg]
    intro hcond
    rw [if_pos hcond] at h
    have h1 : toLowerL pre = [] := congrArg Prod.fst h
    exact toLowerL_ne_nil hcond.1 h1

/-- Success of scheme detection characterized: a nonempty first component
comes from the success branch. -/
theorem detectScheme_inv {u : LC} (h : (detectScheme u).1 ≠ []) :
    (detectScheme u).1 ≠ [] ∧ headAlpha (detectScheme u).1 = true ∧
    (detectScheme u).1.all schemeChar = true ∧ toLowerL (detectScheme u).1 = (detectScheme u).1 := by
  rcases hs : splitFirst ':' u with _ | ⟨pre, rest⟩
  · simp [detectScheme, hs] at h
  · simp only [detectScheme, hs] at h ⊢
    by_cases hc : pre ≠ [] ∧ headAlpha pre = true ∧ pre.all schemeChar = true
    · rw [if_pos hc] at h ⊢
      refine ⟨h, headAlpha_toLowerL hc.2.1, all_schemeChar_toLowerL hc.2.2, toLowerL_idem pre⟩
    · rw [if_neg hc] at h
      exact absurd rfl h

/-! ### Lemmas: netloc, fragment and query splitting -/

theorem takeWhile_all_append {p : Char → Bool} {n rest : LC}
    (h1 : ∀ c ∈ n, p c = true)
    (h2 : ∀ c, rest.head? = some c → p c = false) :
    (n ++ rest).takeWhile p = n ∧ (n ++ rest).dropWhile p = rest := by
  induction n with
  | nil =>
    simp only [List.nil_append]
    cases rest with
    | nil => simp
    | cons c t =>
      have hc := h2 c rfl
      constructor
      · simp [List.takeWhile_cons, hc]
      · simp [List.dropWhile_cons, hc]
  | cons a n' ih =>
    have ha := h1 a (by simp)
    obtain ⟨ih1, ih2⟩ := ih (fun c hc => h1 c (by simp [hc]))
    constructor
    · simp [List.takeWhile_cons, ha, ih1]
    · simp [List.dropWhile_cons, ha, ih2]

theorem dropWhile_head_false {p : Char → Bool} {l : LC} :
    ∀ c, (l.dropWhile p).head? = some c → p c = false := by
  induction l with
  | nil => simp
  | cons a t ih =>
    intro c hc
    by_cases ha : p a
    · rw [List.dropWhile_cons, if_pos ha] at hc
      exact ih c hc
    · rw [List.dropWhile_cons, if_neg ha] at hc
      simp only [List.head?_cons, Option.some_inj] at hc
      subst hc
      exact Bool.of_not_eq_true ha

theorem detectScheme_nil : detectScheme ([] : LC) = ([], []) := rfl

theorem splitQuery_no_q (l : LC) : ∀ c ∈ (splitQuery l).1, c ≠ '?' := by
  unfold splitQuery
  rcases hs : splitFirst '?' l with _ | ⟨a, b⟩
  · exact splitFirst_none_mem hs
  · exact (splitFirst_eq hs).2

theorem splitFrag_no_hash (l : LC) : ∀ c ∈ (splitFrag l).1, c ≠ '#' := by
  unfold splitFrag
  rcases hs : splitFirst '#' l with _ | ⟨a, b⟩
  · exact splitFirst_none_mem hs
  · exact (splitFirst_eq hs).2

theorem splitQuery_sub (l : LC) : ∀ c, (c ∈ (splitQuery l).1 → c ∈ l) ∧ (c ∈ (splitQuery l).2 → c ∈ l) := by
  unfold splitQuery
  rcases hs : splitFirst '?' l with _ | ⟨a, b⟩
  · exact fun c => ⟨fun h => h, fun h => by simp at h⟩
  · obtain ⟨he, _⟩ := splitFirst_eq hs
    exact fun c => ⟨fun h => by simp [he, h], fun h => by simp [he, h]⟩

theorem splitFrag_sub (l : LC) : ∀ c, c ∈ (splitFrag l).1 → c ∈ l := by
  unfold splitFrag
  rcases hs : splitFirst '#' l with _ | ⟨a, b⟩
  · exact fun _ h => h
  · obtain ⟨he, _⟩ := splitFirst_eq hs
    exact fun c h => by simp [he, h]

/-- Head preservation: the part before the split starts where the whole
list starts. -/
theorem splitFrag_head {l : LC} (h : (splitFrag l).1 ≠ []) :
    (splitFrag l).1.head? = l.head? := by
  unfold splitFrag at *
  rcases hs : splitFirst '#' l with _ | ⟨a, b⟩
  · rfl
  · obtain ⟨he, _⟩ := splitFirst_eq hs
    rw [hs] at h
    rw [he]
    cases a with
    | nil => exact absurd rfl h
    | cons x t => simp

theorem splitQuery_head {l : LC} (h : (splitQuery l).1 ≠ []) :
    (splitQuery l).1.head? = l.head? := by
  unfold splitQuery at *
  rcases hs : splitFirst '?' l with _ | ⟨a, b⟩
  · rfl
  · obtain ⟨he, _⟩ := splitFirst_eq hs
    rw [hs] at h
    rw [he]
    cases a with
    | nil => exact absurd rfl h
    | cons x t => simp

/-- The part before the `?` split, rejoined with the `qpart` of the query,
is the original list up to a possibly dropped trailing bare `?`. -/
theorem splitQuery_join (l : LC) :
    l = (splitQuery l).1 ++ qpart (splitQuery l).2 ∨
    l = ((splitQuery l).1 ++ qpart (splitQuery l).2) ++ ['?'] := by
  unfold splitQuery
  rcases hs : splitFirst '?' l with _ | ⟨a, b⟩
  · left; simp [qpart]
  · obtain ⟨he, _⟩ := splitFirst_eq hs
    by_cases hb : b = []
    · right; subst hb; simp [he, qpart]
    · left; simp [he, qpart, hb]

theorem urlsplit_some_eq {u : LC} {r : UrlSplit} (h : urlsplit u = some r) :
    r = ⟨usScheme u, usNetloc u, usPath u, usQuery u, usFrag u⟩ ∧
    ¬ (('[' ∈ usNetloc u ∧ ']' ∉ usNetloc u) ∨ (']' ∈ usNetloc u ∧ '[' ∉ usNetloc u)) := by
  unfold urlsplit at h
  split at h
  · exact Option.noConfusion h
  · rename_i hbr
    injection h with h
    exact ⟨h.symm, hbr⟩

theorem splitNetloc_no_delim (rest : LC) : ∀ c ∈ (splitNetloc rest).1, netlocDelim c = false := by
  unfold splitNetloc
  split
  · intro c hc
    have := List.mem_takeWhile_imp hc
    simpa using this
  · intro c hc
    simp at hc

/-- When the authority branch was taken, the remainder after the netloc
starts with a delimiter (or is empty). -/
theorem splitNetloc_rest_head {rest : LC} (hb : rest.take 2 = ['/', '/']) :
    ∀ c, (splitNetloc rest).2.head? = some c → netlocDelim c = true := by
  unfold splitNetloc
  rw [if_pos hb]
  intro c hc
  have hd := dropWhile_head_false c hc
  simpa using hd

theorem splitNetloc_not_taken {rest : LC} (hb : ¬ rest.take 2 = ['/', '/']) :
    splitNetloc rest = ([], rest) := by
  unfold splitNetloc
  rw [if_neg hb]

/-- `splitFrag` rejoins: the original is the part before the split plus
either nothing or a `#`-led tail. -/
theorem splitFrag_join (l : LC) :
    l = (splitFrag l).1 ∨ l = (splitFrag l).1 ++ '#' :: (splitFrag l).2 := by
  unfold splitFrag
  rcases hs : splitFirst '#' l with _ | ⟨a, b⟩
  · left; rfl
  · right; exact (splitFirst_eq hs).1

/-- Head of the path produced by `urlsplit`, traced back to the head of the
remainder after the netloc. -/
theorem usPath_head {u : LC} (h : usPath u ≠ []) :
    (usPath u).head? = (usRest2 u).head? := by
  have hpre0 : usPre u ≠ [] := by
    intro h0
    apply h
    unfold usPath
    rw [show usPre u = [] from h0]
    rfl
  have h1 : (usPath u).head? = (usPre u).head? := splitQuery_head h
  have h2 : (usPre u).head? = (usRest2 u).head? := splitFrag_head hpre0
  rw [h1, h2]

theorem urlsplit_good {u : LC} {r : UrlSplit} (h : urlsplit u = some r) : GoodSplit r := by
  obtain ⟨hr, hbr⟩ := urlsplit_some_eq h
  subst hr
  refine ⟨?_, splitNetloc_no_delim (usRest u), hbr, ?_, ?_, ?_, ?_, ?_⟩
  · -- scheme_ok
    by_cases hs0 : usScheme u = []
    · exact Or.inl hs0
    · exact Or.inr (detectScheme_inv hs0)
  · -- path_no_hash
    intro c hc
    exact splitFrag_no_hash (usRest2 u) c ((splitQuery_sub (usPre u) c).1 hc)
  · -- path_no_q
    exact splitQuery_no_q (usPre u)
  · -- query_no_hash
    intro c hc
    exact splitFrag_no_hash (usRest2 u) c ((splitQuery_sub (usPre u) c).2 hc)
  · -- path_slash
    intro hnl_ne
    dsimp only at hnl_ne ⊢
    rcases hps : usPath u with _ | ⟨c, t⟩
    · exact Or.inl rfl
    · right
      have hp0 : usPath u ≠ [] := by rw [hps]; simp
      have hbranch : (usRest u).take 2 = ['/', '/'] := by
        by_contra hb
        apply hnl_ne
        show usNetloc u = []
        unfold usNetloc
        rw [splitNetloc_not_taken hb]
      have hrc : (usRest2 u).head? = some c := by
        rw [← usPath_head hp0, hps]
        rfl
      have hdel : netlocDelim c = true := splitNetloc_rest_head hbranch c hrc
      have hcmem : c ∈ usPath u := by rw [hps]; simp
      have hnq : c ≠ '?' := splitQuery_no_q (usPre u) c hcmem
      have hnh : c ≠ '#' :=
        splitFrag_no_hash (usRest2 u) c ((splitQuery_sub (usPre u) c).1 hcmem)
      have hc' : c = '/' := by
        simp only [netlocDelim, Bool.or_eq_true, decide_eq_true_eq] at hdel
        rcases hdel with (hd | hd) | hd
        · exact hd
        · exact absurd hd hnq
        · exact absurd hd hnh
      rw [hc']
      rfl
  · -- path_noscheme
    intro hsch hnl hpp
    dsimp only at hsch hnl hpp ⊢
    have hds : detectScheme u = ([], u) := detectScheme_fail hsch
    have hrest_u : usRest u = u := by unfold usRest; rw [hds]
    by_cases hb : (usRest u).take 2 = ['/', '/']
    · -- authority branch taken but netloc empty: the path starts with a
      -- delimiter, which is not a letter
      rcases hps : usPath u with _ | ⟨c, t⟩
      · rcases hq : usQuery u with _ | ⟨d, e⟩
        · simpa [qpart] using detectScheme_nil
        · rw [List.nil_append]
          apply detectScheme_not_alpha
          rfl
      · have hp0 : usPath u ≠ [] := by rw [hps]; simp
        have hrc : (usRest2 u).head? = some c := by
          rw [← usPath_head hp0, hps]
          rfl
        have hdel : netlocDelim c = true := splitNetloc_rest_head hb c hrc
        apply detectScheme_not_alpha
        show isAsciiAlpha c = false
        simp only [netlocDelim, Bool.or_eq_true, decide_eq_true_eq] at hdel
        rcases hdel with (hd | hd) | hd <;> (subst hd; rfl)
    · -- no authority: the rejoined value is a prefix of u, on which failed
      -- scheme detection transfers down
      have hrest2 : usRest2 u = u := by
        unfold usRest2
        rw [splitNetloc_not_taken hb, hrest_u]
      have hfr : usRest2 u = usPre u ∨ usRest2 u = usPre u ++ '#' :: usFrag u :=
        splitFrag_join (usRest2 u)
      have hqj : usPre u = usPath u ++ qpart (usQuery u) ∨
          usPre u = (usPath u ++ qpart (usQuery u)) ++ ['?'] :=
        splitQuery_join (usPre u)
      have hfail : detectScheme u = ([], u) := hds
      rcases hqj with hqj | hqj
      · rcases hfr with hfr | hfr
        · have hu : u = usPath u ++ qpart (usQuery u) := by
            conv_lhs => rw [← hrest2, hfr, hqj]
          rw [← hu]
          exact hfail
        · have hu : u = (usPath u ++ qpart (usQuery u)) ++ '#' :: usFrag u := by
            conv_lhs => rw [← hrest2, hfr]
            rw [← hqj]
          rw [hu] at hfail
          exact detectScheme_fail_app hfail
      · rcases hfr with hfr | hfr
        · have hu : u = (usPath u ++ qpart (usQuery u)) ++ ['?'] := by
            conv_lhs => rw [← hrest2, hfr, hqj]
          rw [hu] at hfail
          exact detectScheme_fail_app hfail
        · have hu : u = (usPath u ++ qpart (usQuery u)) ++ ('?' :: '#' :: usFrag u) := by
            conv_lhs => rw [← hrest2, hfr, hqj]
            simp
          rw [hu] at hfail
          exact detectScheme_fail_app hfail

/-! ### Reparsing an unsplit Good result -/

theorem qpart_no_hash {q : LC} (h : ∀ c ∈ q, c ≠ '#') : ∀ c ∈ qpart q, c ≠ '#' := by
  unfold qpart
  split
  · simp
  · intro c hc
    rcases List.mem_cons.mp hc with rfl | hc'
    · decide
    · exact h c hc'

theorem qpart_head_delim (q : LC) : ∀ c, (qpart q).head? = some c → netlocDelim c = true := by
  unfold qpart
  split
  · simp
  · intro c hc
    simp only [List.head?_cons, Option.some_inj] at hc
    subst hc
    rfl

theorem urlunsplit_eq {r : UrlSplit} (hf : r.fragment = []) :
    urlunsplit r =
      if r.scheme ≠ [] then r.scheme ++ ':' :: unsplitBody r else unsplitBody r := by
  unfold urlunsplit unsplitBody
  rw [hf]
  simp only [ne_eq, not_true_eq_false, if_false, reduceIte]
  by_cases hb : unsplitCond r <;> by_cases hs : r.scheme ≠ [] <;> by_cases hq : r.query ≠ [] <;>
    simp [hb, hs, hq, qpart, List.append_assoc]

theorem prependedPath_mem {r : UrlSplit} : ∀ c ∈ prependedPath r, c = '/' ∨ c ∈ r.path := by
  unfold prependedPath
  split
  · intro c hc
    rcases List.mem_cons.mp hc with rfl | hc'
    · exact Or.inl rfl
    · exact Or.inr hc'
  · exact fun c hc => Or.inr hc

theorem prependedPath_no_q {r : UrlSplit} (hg : GoodSplit r) :
    ∀ c ∈ prependedPath r, c ≠ '?' := by
  intro c hc
  rcases prependedPath_mem c hc with rfl | hc'
  · decide
  · exact hg.path_no_q c hc'

theorem prependedPath_no_hash {r : UrlSplit} (hg : GoodSplit r) :
    ∀ c ∈ prependedPath r, c ≠ '#' := by
  intro c hc
  rcases prependedPath_mem c hc with rfl | hc'
  · decide
  · exact hg.path_no_hash c hc'

/-- A nonempty slash-prepended path starts with a slash. -/
theorem prependedPath_head {r : UrlSplit} (h : prependedPath r ≠ []) :
    (prependedPath r).head? = some '/' := by
  unfold prependedPath at *
  by_cases hc : r.path ≠ [] ∧ r.path.head? ≠ some '/'
  · rw [if_pos hc]
    rfl
  · rw [if_neg hc] at h ⊢
    have hp : r.path ≠ [] := h
    rcases not_and_or.mp hc with h1 | h2
    · exact absurd hp h1
    · exact not_not.mp h2

/-- The prepend never yields a path starting with a double slash when the
original path did not start with one. -/
theorem prependedPath_take2 {r : UrlSplit} (h : ¬ r.path.take 2 = ['/', '/']) :
    ¬ (prependedPath r).take 2 = ['/', '/'] := by
  unfold prependedPath
  by_cases hc : r.path ≠ [] ∧ r.path.head? ≠ some '/'
  · rw [if_pos hc]
    rcases hp : r.path with _ | ⟨c1, t⟩
    · exact absurd hp hc.1
    · intro hcontra
      simp [List.take] at hcontra
      apply hc.2
      rw [hp, hcontra]
      rfl
  · rw [if_neg hc]
    exact h

/-- Splitting the query off a path-plus-query body recovers the parts. -/
theorem splitQuery_pp {pth q : LC} (hq : ∀ c ∈ pth, c ≠ '?') :
    splitQuery (pth ++ qpart q) = (pth, q) := by
  by_cases h0 : q = []
  · subst h0
    rw [show qpart [] = [] from rfl, List.append_nil]
    unfold splitQuery
    rw [splitFirst_none hq]
  · have hqp : qpart q = '?' :: q := by unfold qpart; rw [if_neg h0]
    rw [hqp]
    unfold splitQuery
    rw [splitFirst_app hq]

/-- A body without `#` characters has no fragment split. -/
theorem splitFrag_pp {pth q : LC} (hp : ∀ c ∈ pth, c ≠ '#') (hq : ∀ c ∈ q, c ≠ '#') :
    splitFrag (pth ++ qpart q) = (pth ++ qpart q, []) := by
  unfold splitFrag
  rw [splitFirst_none]
  intro c hc
  rcases List.mem_append.mp hc with h | h
  · exact hp c h
  · exact qpart_no_hash hq c h

/-- Netloc splitting of the rebuilt body. -/
theorem splitNetloc_body {r : UrlSplit} (hg : GoodSplit r)
    (hside : ¬ (r.netloc = [] ∧ r.path.take 2 = ['/', '/'])) :
    splitNetloc (unsplitBody r) =
      (r.netloc, (if unsplitCond r then prependedPath r else r.path) ++ qpart r.query) := by
  unfold unsplitBody
  by_cases hb : unsplitCond r
  · rw [if_pos hb, if_pos hb]
    have hB : (['/', '/'] ++ r.netloc ++ prependedPath r) ++ qpart r.query =
        ['/', '/'] ++ (r.netloc ++ (prependedPath r ++ qpart r.query)) := by
      simp [List.append_assoc]
    rw [hB]
    unfold splitNetloc
    rw [if_pos (show (['/', '/'] ++
      (r.netloc ++ (prependedPath r ++ qpart r.query))).take 2 = ['/', '/'] from rfl)]
    have hdrop : (['/', '/'] ++ (r.netloc ++ (prependedPath r ++ qpart r.query))).drop 2 =
        r.netloc ++ (prependedPath r ++ qpart r.query) := rfl
    rw [hdrop]
    have h1 : ∀ c ∈ r.netloc, (fun c => !netlocDelim c) c = true := by
      intro c hc
      simp [hg.netloc_no_delim c hc]
    have h2 : ∀ c, (prependedPath r ++ qpart r.query).head? = some c →
        (fun c => !netlocDelim c) c = false := by
      intro c hc
      rcases hp : prependedPath r with _ | ⟨c1, t⟩
      · rw [hp, List.nil_append] at hc
        simp [qpart_head_delim r.query c hc]
      · rw [hp] at hc
        have hc1 : c1 = c := Option.some_inj.mp (by simpa using hc)
        subst hc1
        have hh : (prependedPath r).head? = some '/' :=
          prependedPath_head (by rw [hp]; simp)
        rw [hp] at hh
        have h1' : c1 = '/' := Option.some_inj.mp (by simpa using hh)
        subst h1'
        rfl
    obtain ⟨htw, hdw⟩ := takeWhile_all_append h1 h2
    rw [htw, hdw]
  · rw [if_neg hb, if_neg hb]
    have hN : r.netloc = [] := by
      by_contra hn
      exact hb (Or.inl hn)
    have hpp : ¬ r.path.take 2 = ['/', '/'] := fun hc => hside ⟨hN, hc⟩
    have htk : ¬ (r.path ++ qpart r.query).take 2 = ['/', '/'] := by
      rcases hp : r.path with _ | ⟨c1, t⟩
      · rcases hq : r.query with _ | ⟨d, e⟩
        · simp [qpart]
        · simp [qpart, List.take]
      · rcases ht : t with _ | ⟨c2, t2⟩
        · rcases hq : r.query with _ | ⟨d, e⟩
          · simp [qpart, List.take]
          · simp [qpart, List.take]
        · intro hcontra
          simp [List.take] at hcontra
          apply hpp
          rw [hp, ht]
          simp [List.take, hcontra.1, hcontra.2]
    rw [splitNetloc_not_taken htk, hN]

/-- Scheme detection on the rebuilt URL recovers the (already lowercased)
scheme and leaves exactly the body. -/
theorem detectScheme_rebuilt {r : UrlSplit} (hg : GoodSplit r)
    (hside : ¬ (r.netloc = [] ∧ r.path.take 2 = ['/', '/'])) :
    detectScheme (if r.scheme ≠ [] then r.scheme ++ ':' :: unsplitBody r else unsplitBody r) =
      (r.scheme, unsplitBody r) := by
  by_cases hs : r.scheme ≠ []
  · rw [if_pos hs]
    rcases hg.scheme_ok with h0 | ⟨hne, hha, hsc, hlow⟩
    · exact absurd h0 hs
    · rw [detectScheme_succeed hne hha hsc, hlow]
  · rw [if_neg hs]
    have hS : r.scheme = [] := not_not.mp hs
    rw [hS]
    unfold unsplitBody
    by_cases hb : unsplitCond r
    · rw [if_pos hb]
      apply detectScheme_not_alpha
      rfl
    · rw [if_neg hb]
      have hN : r.netloc = [] := by
        by_contra hn
        exact hb (Or.inl hn)
      have htp : ¬ (r.path.take 2 = ['/', '/']) := fun hc => hside ⟨hN, hc⟩
      exact hg.path_noscheme hS hN htp

theorem urlsplit_rebuilt {r : UrlSplit} (hg : GoodSplit r) (hf : r.fragment = [])
    (hside : ¬ (r.netloc = [] ∧ r.path.take 2 = ['/', '/'])) :
    urlsplit (urlunsplit r) = some (reparsed r) := by
  rw [urlunsplit_eq hf]
  have hds := detectScheme_rebuilt hg hside
  have hrest : usRest (if r.scheme ≠ [] then r.scheme ++ ':' :: unsplitBody r
      else unsplitBody r) = unsplitBody r := by
    unfold usRest; rw [hds]
  have hnlPair := splitNetloc_body hg hside
  have hnet : usNetloc (if r.scheme ≠ [] then r.scheme ++ ':' :: unsplitBody r
      else unsplitBody r) = r.netloc := by
    unfold usNetloc; rw [hrest, hnlPair]
  have hrest2 : usRest2 (if r.scheme ≠ [] then r.scheme ++ ':' :: unsplitBody r
      else unsplitBody r) =
      (if unsplitCond r then prependedPath r else r.path) ++ qpart r.query := by
    unfold usRest2; rw [hrest, hnlPair]
  have hppq : ∀ c ∈ (if unsplitCond r then prependedPath r else r.path), c ≠ '?' := by
    split
    · exact prependedPath_no_q hg
    · exact hg.path_no_q
  have hpph : ∀ c ∈ (if unsplitCond r then prependedPath r else r.path), c ≠ '#' := by
    split
    · exact prependedPath_no_hash hg
    · exact hg.path_no_hash
  have hpre : usPre (if r.scheme ≠ [] then r.scheme ++ ':' :: unsplitBody r
      else unsplitBody r) =
      (if unsplitCond r then prependedPath r else r.path) ++ qpart r.query := by
    unfold usPre; rw [hrest2, splitFrag_pp hpph hg.query_no_hash]
  have hfragc : usFrag (if r.scheme ≠ [] then r.scheme ++ ':' :: unsplitBody r
      else unsplitBody r) = [] := by
    unfold usFrag; rw [hrest2, splitFrag_pp hpph hg.query_no_hash]
  have hpath : usPath (if r.scheme ≠ [] then r.scheme ++ ':' :: unsplitBody r
      else unsplitBody r) = (if unsplitCond r then prependedPath r else r.path) := by
    unfold usPath; rw [hpre, splitQuery_pp hppq]
  have hquery : usQuery (if r.scheme ≠ [] then r.scheme ++ ':' :: unsplitBody r
      else unsplitBody r) = r.query := by
    unfold usQuery; rw [hpre, splitQuery_pp hppq]
  have hscheme : usScheme (if r.scheme ≠ [] then r.scheme ++ ':' :: unsplitBody r
      else unsplitBody r) = r.scheme := by
    unfold usScheme; rw [hds]
  unfold urlsplit
  rw [hnet, hscheme, hpath, hquery, hfragc]
  rw [if_neg hg.netloc_brackets]
  rfl

/-- Reassembling the reparsed split gives the same string back. -/
theorem unsplit_reparsed {r : UrlSplit} (hg : GoodSplit r) (hf : r.fragment = [])
    (hside : ¬ (r.netloc = [] ∧ r.path.take 2 = ['/', '/'])) :
    urlunsplit (reparsed r) = urlunsplit r := by
  by_cases hb : unsplitCond r
  · by_cases hn : r.netloc = []
    · -- authority branch via the uses_netloc disjunct
      rcases hb with hb0 | ⟨hs, hu, htk⟩
      · exact absurd hn hb0
      · have hb' : unsplitCond r := Or.inr ⟨hs, hu, htk⟩
        have htk' : ¬ (prependedPath r).take 2 = ['/', '/'] := prependedPath_take2 htk
        have hbR : unsplitCond (reparsed r) := by
          right
          refine ⟨hs, hu, ?_⟩
          show ¬ ((reparsed r).path.take 2 = ['/', '/'])
          unfold reparsed
          simp only
          rw [if_pos hb']
          exact htk'
        have hppR : prependedPath (reparsed r) = prependedPath r := by
          unfold prependedPath reparsed
          simp only
          rw [if_pos hb']
          by_cases h0 : prependedPath r = []
          · rw [if_neg (fun hc => hc.1 h0)]
            unfold prependedPath at h0 ⊢
            exact h0.symm ▸ rfl
          · rw [if_neg (fun hc => hc.2 (prependedPath_head h0))]
            rfl
        rw [urlunsplit_eq (show (reparsed r).fragment = [] from rfl), urlunsplit_eq hf]
        have hbody : unsplitBody (reparsed r) = unsplitBody r := by
          unfold unsplitBody
          rw [if_pos hbR, if_pos hb', hppR]
          show (['/', '/'] ++ (reparsed r).netloc ++ prependedPath r) ++ qpart (reparsed r).query =
            (['/', '/'] ++ r.netloc ++ prependedPath r) ++ qpart r.query
          unfold reparsed
          simp only
        have hsch : (reparsed r).scheme = r.scheme := rfl
        rw [hbody, hsch]
    · -- nonempty authority: the prepend is the identity, so the reparsed
      -- split is the original
      have hpp : prependedPath r = r.path := by
        unfold prependedPath
        rcases hg.path_slash hn with hp | hp
        · rw [if_neg (fun hc => hc.1 hp)]
        · rw [if_neg (fun hc => hc.2 (hp ▸ (by simp)))]
      have hRr : reparsed r = r := by
        unfold reparsed
        rw [if_pos hb, hpp, ← hf]
      rw [hRr]
  · have hRr : reparsed r = r := by
      unfold reparsed
      rw [if_neg hb, ← hf]
    rw [hRr]

/-- Conditional idempotence: `normalize_url` is idempotent on every input
whose parse yields a nonempty authority or a path that does not begin with
`//`.  Without the side condition idempotence fails (see the C6
counterexample: the path's leading `//` is re-read as an authority
marker). -/
theorem normalize_url_idem_cond {u : LC} {r : UrlSplit} (h : urlsplit u = some r)
    (hside : ¬ (r.netloc = [] ∧ r.path.take 2 = ['/', '/'])) :
    normalize_url (normalize_url u) = normalize_url u := by
  have hg : GoodSplit r := urlsplit_good h
  have hg' : GoodSplit ⟨r.scheme, r.netloc, r.path, r.query, []⟩ :=
    ⟨hg.scheme_ok, hg.netloc_no_delim, hg.netloc_brackets, hg.path_no_hash,
     hg.path_no_q, hg.query_no_hash, hg.path_slash, hg.path_noscheme⟩
  have h1 : normalize_url u = urlunsplit ⟨r.scheme, r.netloc, r.path, r.query, []⟩ := by
    unfold normalize_url
    rw [h]
  rw [h1]
  unfold normalize_url
  rw [urlsplit_rebuilt hg' rfl hside]
  exact unsplit_reparsed hg' rfl hside

theorem fetch_url_go_length (chunks : List LC) (acc : LC) :
    (fetch_url_go chunks acc).length = fetch_len_go (chunks.map List.length) acc.length := by
  induction chunks generalizing acc with
  | nil => rfl
  | cons ch rest ih =>
    simp only [fetch_url_go, fetch_len_go, List.map_cons]
    by_cases hch : ch ≠ []
    · rw [if_pos hch]
      by_cases hlen : (acc ++ ch).length > 300000
      · rw [if_pos hlen, if_pos (by simpa using hlen)]
        simp
      · rw [if_neg hlen, if_neg (by simpa using hlen), ih]
        simp
    · rw [if_neg hch]
      have hch0 : ch = [] := not_not.mp hch
      subst hch0
      by_cases hlen : acc.length > 300000
      · rw [if_pos hlen, if_pos (by simpa using hlen)]
        simp
      · rw [if_neg hlen, if_neg (by simpa using hlen), ih]
        simp

/-! ### Lemmas: dict upsert and the miner -/

theorem dictInsert_keys_mono {m : List (LC × LC)} {k' v' : LC} :
    ∀ k, k ∈ dictKeys m → k ∈ dictKeys (dictInsert m k' v') := by
  induction m with
  | nil => intro k hk; simp [dictKeys] at hk
  | cons p t ih =>
    intro k hk
    obtain ⟨k0, v0⟩ := p
    simp only [dictKeys, List.map_cons, List.mem_cons] at hk
    unfold dictInsert
    by_cases he : k0 = k'
    · rw [if_pos he]
      rcases hk with hk | hk
      · simp [dictKeys, he ▸ hk]
      · simp [dictKeys]
        right
        simpa [dictKeys] using hk
    · rw [if_neg he]
      rcases hk with hk | hk
      · simp [dictKeys, hk]
      · simp only [dictKeys, List.map_cons, List.mem_cons]
        right
        exact ih k hk

theorem applyCands_keys_mono {cs : List (LC × LC)} :
    ∀ {sub : List (LC × LC)} (k : LC), k ∈ dictKeys sub → k ∈ dictKeys (applyCands sub cs) := by
  induction cs with
  | nil => intro sub k hk; exact hk
  | cons c t ih =>
    intro sub k hk
    unfold applyCands
    rw [List.foldl_cons]
    exact ih k (dictInsert_keys_mono k hk)

theorem mineModule_module (content : Node) (m : ModuleR) :
    (mineModule content m).module = m.module := by
  unfold mineModule
  split
  · rfl
  · rfl

theorem mineModule_description (content : Node) (m : ModuleR) :
    (mineModule content m).Description = m.Description := by
  unfold mineModule
  split
  · rfl
  · rfl

theorem mineModule_keys (content : Node) (m : ModuleR) :
    ∀ k, k ∈ dictKeys m.Submodules → k ∈ dictKeys (mineModule content m).Submodules := by
  intro k hk
  unfold mineModule
  split
  · exact hk
  · show k ∈ dictKeys (match applyCands m.Submodules _ with
      | [] => applyCands [] (minePass7 content m.module)
      | x :: xs => x :: xs)
    have h6 : k ∈ dictKeys (applyCands m.Submodules
        (minePass1 content m.module ++ minePass2 content m.module ++
         minePass3 content m.module ++ minePass4 content m.module ++
         minePass5 content m.module ++ minePass6 content m.module)) :=
      applyCands_keys_mono k hk
    rcases hs : applyCands m.Submodules
        (minePass1 content m.module ++ minePass2 content m.module ++
         minePass3 content m.module ++ minePass4 content m.module ++
         minePass5 content m.module ++ minePass6 content m.module) with _ | ⟨x, xs⟩
    · rw [hs] at h6
      simp [dictKeys] at h6
    · rw [hs] at h6
      exact h6

/-! ### Lemmas: deduplication -/

theorem dedup_sublist : ∀ (ms : List ModuleR) (seen : List LC),
    (parse_html_batch_dedup ms seen).Sublist ms := by
  intro ms
  induction ms with
  | nil => intro seen; simp [parse_html_batch_dedup]
  | cons m t ih =>
    intro seen
    unfold parse_html_batch_dedup
    split
    · exact (ih seen).cons m
    · exact (ih (m.module :: seen)).cons₂ m

theorem dedup_first_occurrence : ∀ (ms : List ModuleR) (seen : List LC),
    ∀ m' ∈ parse_html_batch_dedup ms seen,
      m'.module ∉ seen ∧ ms.find? (fun m => decide (m.module = m'.module)) = some m' := by
  intro ms
  induction ms with
  | nil => intro seen m' hm'; simp [parse_html_batch_dedup] at hm'
  | cons m t ih =>
    intro seen m' hm'
    unfold parse_html_batch_dedup at hm'
    split at hm'
    · rename_i hseen
      obtain ⟨h1, h2⟩ := ih seen m' hm'
      refine ⟨h1, ?_⟩
      rw [List.find?_cons]
      split
      · rename_i hd
        simp only [decide_eq_true_eq] at hd
        exact absurd (hd ▸ hseen) h1
      · exact h2
    · rename_i hseen
      rcases List.mem_cons.mp hm' with rfl | hm''
      · refine ⟨hseen, ?_⟩
        rw [List.find?_cons]
        split
        · rfl
        · rename_i hd
          simp at hd
      · obtain ⟨h1, h2⟩ := ih (m.module :: seen) m' hm''
        have hne : m'.module ≠ m.module := fun he => h1 (by simp [he])
        refine ⟨fun hc => h1 (by simp [hc]), ?_⟩
        rw [List.find?_cons]
        split
        · rename_i hd
          simp only [decide_eq_true_eq] at hd
          exact absurd hd.symm hne
        · exact h2

theorem dedup_nodup : ∀ (ms : List ModuleR) (seen : List LC),
    ((parse_html_batch_dedup ms seen).map ModuleR.module).Nodup := by
  intro ms
  induction ms with
  | nil => intro seen; simp [parse_html_batch_dedup]
  | cons m t ih =>
    intro seen
    unfold parse_html_batch_dedup
    split
    · exact ih seen
    · simp only [List.map_cons, List.nodup_cons]
      refine ⟨?_, ih (m.module :: seen)⟩
      intro hc
      obtain ⟨m', hm', he⟩ := List.mem_map.mp hc
      obtain ⟨h1, _⟩ := dedup_first_occurrence t (m.module :: seen) m' hm'
      exact h1 (by simp [he])

theorem dedup_complete : ∀ (ms : List ModuleR) (seen : List LC),
    ∀ m ∈ ms, m.module ∈ seen ∨
      ∃ m' ∈ parse_html_batch_dedup ms seen, m'.module = m.module := by
  intro ms
  induction ms with
  | nil => intro seen m hm; simp at hm
  | cons m0 t ih =>
    intro seen m hm
    unfold parse_html_batch_dedup
    rcases List.mem_cons.mp hm with rfl | hm'
    · split
      · rename_i hseen
        exact Or.inl hseen
      · exact Or.inr ⟨m, by simp, rfl⟩
    · split
      · rename_i hseen
        rcases ih seen m hm' with h | ⟨m', hmem, he⟩
        · exact Or.inl h
        · exact Or.inr ⟨m', hmem, he⟩
      · rename_i hseen
        rcases ih (m0.module :: seen) m hm' with h | ⟨m', hmem, he⟩
        · rcases List.mem_cons.mp h with he0 | hin
          · exact Or.inr ⟨m0, by simp, he0.symm⟩
          · exact Or.inl hin
        · exact Or.inr ⟨m', by simp [hmem], he⟩

/-! ### Lemmas: heading walk, fetch bound, crawl loop -/

theorem headStep_skip {st : HeadState} {occ : Node × List Node}
    (hc : st.currentIdx = none) (hl : 2 < headingLevel occ.1) : headStep st occ = st := by
  simp only [headStep]
  by_cases ht : clean_text (getText occ.1) = [] ∨ (clean_text (getText occ.1)).length > 100
  · rw [if_pos ht]
  · rw [if_neg ht, if_neg (show ¬ headingLevel occ.1 ≤ 2 by omega), hc]

theorem headFold_skips_deep (pre : List (Node × List Node)) :
    ∀ rest : List (Node × List Node), (∀ o ∈ pre, 2 < headingLevel o.1) →
      (pre ++ rest).foldl headStep ⟨[], none, []⟩ = rest.foldl headStep ⟨[], none, []⟩ := by
  induction pre with
  | nil => intro rest _; rfl
  | cons o t ih =>
    intro rest hall
    rw [List.cons_append, List.foldl_cons,
      headStep_skip rfl (hall o (by simp))]
    exact ih rest (fun o' ho' => hall o' (by simp [ho']))

theorem fetch_url_go_bound {c : Nat} : ∀ (chunks : List LC) (acc : LC),
    (∀ ch ∈ chunks, ch.length ≤ c) → acc.length ≤ 300000 →
    (fetch_url_go chunks acc).length ≤ 300000 + c := by
  intro chunks
  induction chunks with
  | nil =>
    intro acc _ hacc
    unfold fetch_url_go
    omega
  | cons ch rest ih =>
    intro acc hall hacc
    unfold fetch_url_go
    have hch : ch.length ≤ c := hall ch (by simp)
    by_cases hne : ch ≠ []
    · rw [if_pos hne]
      by_cases hlen : (acc ++ ch).length > 300000
      · rw [if_pos hlen]
        simp only [List.length_append]
        omega
      · rw [if_neg hlen]
        exact ih (acc ++ ch) (fun x hx => hall x (by simp [hx])) (by omega)
    · rw [if_neg hne]
      by_cases hlen : acc.length > 300000
      · rw [if_pos hlen]
        omega
      · rw [if_neg hlen]
        exact ih acc (fun x hx => hall x (by simp [hx])) (by omega)

theorem crawl_loop_empty_queue (fetch : LC → Option LC) (linksOf : LC → LC → List LC)
    (cfg : CrawlCfg) : ∀ (fuel : Nat) (st : CrawlSt), st.queue = [] →
    crawl_loop fetch linksOf cfg fuel st = st.pages := by
  intro fuel st hq
  cases fuel with
  | zero => rfl
  | succ f =>
    unfold crawl_loop
    rw [if_pos (Or.inl hq)]

theorem enqueue_fold_noop (cfg : CrawlCfg) (d : Nat) : ∀ (links : List LC) (s : CrawlSt),
    ¬ s.pages.length < cfg.maxPages →
    links.foldl (fun s link =>
      if link ∉ s.visited ∧ s.pages.length < cfg.maxPages then
        { s with queue := s.queue ++ [(link, d)] }
      else s) s = s := by
  intro links
  induction links with
  | nil => intro s _; rfl
  | cons l t ih =>
    intro s hs
    rw [List.foldl_cons, if_neg (fun hc => hs hc.2)]
    exact ih s hs

/-! ## Claim theorems -/

/-- C1 counterexample: the aggressive miner does overwrite.  For the module
`mod` with pre-existing submodule `A ↦ old` and a page whose table mentions
`mod` and has a data row `(A, new)`, the key `A`'s description changes. -/
theorem C1_counterexample :
    dictGet? ((find_submodules_aggressively true c1content
        [⟨toL "mod", [], [(toL "A", toL "old")]⟩]).headD default).Submodules (toL "A") ≠
      dictGet? [(toL "A", toL "old")] (toL "A") := by decide

/-- C1 (amended): the aggressive miner never removes submodule entries or
touches names and descriptions of modules: the module list keeps its length
and order, every module keeps its name and description, and every submodule
key present before the run is still present after (its description may have
been overwritten by a later heuristic hit — upsert, last write wins). -/
theorem C1_miner_only_adds_or_overwrites :
    ∀ (flag : Bool) (content : Node) (ms : List ModuleR),
      (find_submodules_aggressively flag content ms).length = ms.length ∧
      ∀ i, i < ms.length →
        ((find_submodules_aggressively flag content ms).getD i default).module =
          (ms.getD i default).module ∧
        ((find_submodules_aggressively flag content ms).getD i default).Description =
          (ms.getD i default).Description ∧
        ∀ k, k ∈ dictKeys (ms.getD i default).Submodules →
          k ∈ dictKeys ((find_submodules_aggressively flag content ms).getD i default).Submodules := by
  intro flag content ms
  cases flag with
  | false => exact ⟨rfl, fun i _ => ⟨rfl, rfl, fun k hk => hk⟩⟩
  | true =>
    have hmap : find_submodules_aggressively true content ms = ms.map (mineModule content) := rfl
    rw [hmap]
    refine ⟨List.length_map _ _, ?_⟩
    intro i hi
    have hget : (ms.map (mineModule content)).getD i default =
        mineModule content (ms.getD i default) := by
      obtain ⟨m, hm⟩ : ∃ m, ms[i]? = some m := by
        rcases hx : ms[i]? with _ | m
        · rw [List.getElem?_eq_none_iff] at hx
          omega
        · exact ⟨m, rfl⟩
      rw [List.getD_eq_getElem?_getD, List.getD_eq_getElem?_getD, List.getElem?_map, hm]
      rfl
    rw [hget]
    exact ⟨mineModule_module content _, mineModule_description content _,
      mineModule_keys content _⟩

/-- C1 witness: at the counterexample instance, the pre-existing key `A`
is still present after the miner runs. -/
theorem C1_witness :
    (toL "A") ∈ dictKeys ((find_submodules_aggressively true c1content
        [⟨toL "mod", [], [(toL "A", toL "old")]⟩]).getD 0 default).Submodules :=
  ((C1_miner_only_adds_or_overwrites true c1content
      [⟨toL "mod", [], [(toL "A", toL "old")]⟩]).2 0 (by decide)).2.2 (toL "A") (by decide)

/-- C2 counterexample: `format_modules` does not drop submodule entries
whose key is the empty string — the empty key survives formatting. -/
theorem C2_counterexample :
    ([] : LC) ∈ dictKeys ((format_modules [c2raw]).headD default).Submodules := by decide

/-- C2 (amended): `format_modules` maps every blank or missing module
description to the sentinel and gives blank submodule descriptions the
same sentinel, keeping every submodule entry — including entries whose
key is the empty string — with nonblank values unchanged (the function
performs no string coercion and no key filtering; those happen only in
app.py's separate inline formatting pass). -/
theorem C2_formatter_normalizes :
    ∀ (ms : List RawModule),
      (format_modules ms).length = ms.length ∧
      ∀ i, i < ms.length →
        (((ms.getD i default).descriptionKey = none ∨
            (ms.getD i default).descriptionKey = some []) →
          ((format_modules ms).getD i default).Description = noDescription) ∧
        (∀ d, (ms.getD i default).descriptionKey = some d → d ≠ [] →
          ((format_modules ms).getD i default).Description = d) ∧
        (∀ k v, (k, v) ∈ ((ms.getD i default).submodulesKey.getD []) →
          (k, if v = [] then noDescription else v) ∈
            ((format_modules ms).getD i default).Submodules) := by
  intro ms
  unfold format_modules
  refine ⟨List.length_map _ _, ?_⟩
  intro i hi
  obtain ⟨m, hm⟩ : ∃ m, ms[i]? = some m := by
    rcases hx : ms[i]? with _ | m
    · rw [List.getElem?_eq_none_iff] at hx
      omega
    · exact ⟨m, rfl⟩
  have hms : ms.getD i default = m := by
    rw [List.getD_eq_getElem?_getD, hm]
    rfl
  have hout : ((ms.map (fun m => (⟨m.moduleKey.getD [],
      if m.descriptionKey.getD [] = [] then noDescription else m.descriptionKey.getD [],
      (m.submodulesKey.getD []).map (fun p =>
        (p.1, if p.2 = [] then noDescription else p.2))⟩ : ModuleR))).getD i default) =
      (⟨m.moduleKey.getD [],
        if m.descriptionKey.getD [] = [] then noDescription else m.descriptionKey.getD [],
        (m.submodulesKey.getD []).map (fun p =>
          (p.1, if p.2 = [] then noDescription else p.2))⟩ : ModuleR) := by
    rw [List.getD_eq_getElem?_getD, List.getElem?_map, hm]
    rfl
  rw [hms, hout]
  refine ⟨?_, ?_, ?_⟩
  · intro hdesc
    rcases hdesc with hd | hd <;> simp [hd]
  · intro d hd hne
    simp [hd, hne]
  · intro k v hkv
    simp only
    exact List.mem_map.mpr ⟨(k, v), hkv, rfl⟩

/-- C2 witness: at the counterexample instance, the empty-keyed entry is
kept with its nonblank value. -/
theorem C2_witness :
    (([] : LC), if (toL "x") = [] then noDescription else toL "x") ∈
      ((format_modules [c2raw]).getD 0 default).Submodules :=
  ((C2_formatter_normalizes [c2raw]).2 0 (by decide)).2.2 [] (toL "x") (by decide)

/-- C3 counterexample: on the spec's list-pass example the extractor emits
no module named `X` at all (the anchor's `title` attribute replaces the
anchor text as the module name). -/
theorem C3_counterexample :
    ¬ ∃ m ∈ extract_modules_from_lists c3body, m.module = toL "X" := by decide

/-- C3 (amended): for the list input
`<ul><li><a title="X desc">X</a></li><li><a>Y</a>: does stuff</li></ul>`
the extractor emits modules named `X desc` and `Y` with descriptions `X`
and `does stuff`: the `title` attribute, being nonempty and different from
the anchor text, replaces the name, and the item text minus the name
(respectively the text after the colon) becomes the description. -/
theorem C3_list_extractor_example :
    extract_modules_from_lists c3body =
      [⟨toL "X desc", toL "X", []⟩, ⟨toL "Y", toL "does stuff", []⟩] := by decide

/-- C4 counterexample: the fetch accumulation loop can return more than
300,000 bytes — with 8,192-byte chunks it stops only after 303,104. -/
theorem C4_counterexample :
    (fetch_url c4chunks).length = 303104 ∧ 300000 < (fetch_url c4chunks).length := by
  have h : (fetch_url c4chunks).length = 303104 := by
    show (fetch_url_go c4chunks []).length = 303104
    rw [fetch_url_go_length]
    have hmap : List.map List.length c4chunks = List.replicate 37 8192 := by
      show List.map List.length (List.replicate 37 (List.replicate 8192 'a')) =
        List.replicate 37 8192
      rw [List.map_replicate, List.length_replicate]
    rw [hmap]
    decide
  exact ⟨h, by omega⟩

/-- C4 (amended): the fetch loop is a soft cap — it stops reading once the
accumulated text exceeds 300,000 characters, so with chunks of size at most
`c` the returned body (and hence any html string stored by the crawler)
has length at most `300000 + c`, not 300,000. -/
theorem C4_fetch_cap_soft :
    ∀ (chunks : List LC) (c : Nat), (∀ ch ∈ chunks, ch.length ≤ c) →
      (fetch_url chunks).length ≤ 300000 + c := by
  intro chunks c hall
  exact fetch_url_go_bound chunks [] hall (by simp)

/-- C4 witness: the bound applied to a single three-character chunk. -/
theorem C4_witness : (fetch_url [toL "abc"]).length ≤ 300000 + 3 :=
  C4_fetch_cap_soft [toL "abc"] 3 (by decide)

/-- C5: the final pass of `parse_html_batch` keeps exactly the first
occurrence of each distinct module name: output names are pairwise
distinct, the output is a subsequence of the input (duplicates are dropped
entirely, nothing is merged), every input name is represented, and every
kept entry equals the first input entry bearing its name. -/
theorem C5_dedup_keeps_first :
    ∀ (ms : List ModuleR),
      ((parse_html_batch ms).map ModuleR.module).Nodup ∧
      (parse_html_batch ms).Sublist ms ∧
      (∀ m ∈ ms, ∃ m' ∈ parse_html_batch ms, m'.module = m.module) ∧
      (∀ m' ∈ parse_html_batch ms,
        ms.find? (fun m => decide (m.module = m'.module)) = some m') := by
  intro ms
  refine ⟨dedup_nodup ms [], dedup_sublist ms [], ?_, ?_⟩
  · intro m hm
    rcases dedup_complete ms [] m hm with h | h
    · simp at h
    · exact h
  · intro m' hm'
    exact (dedup_first_occurrence ms [] m' hm').2

/-- C5 witness: with two modules both named `Foo`, the kept entry is the
first one. -/
theorem C5_witness :
    ([⟨toL "Foo", toL "d1", []⟩, ⟨toL "Foo", toL "d2", []⟩] : List ModuleR).find?
        (fun m => decide (m.module = (ModuleR.mk (toL "Foo") (toL "d1") []).module)) =
      some ⟨toL "Foo", toL "d1", []⟩ :=
  (C5_dedup_keeps_first [⟨toL "Foo", toL "d1", []⟩, ⟨toL "Foo", toL "d2", []⟩]).2.2.2
    ⟨toL "Foo", toL "d1", []⟩ (by decide)

/-- C6 counterexample: `normalize_url` is not idempotent, hence not pure
fragment stripping either.  The fragment-free input `////` (empty scheme,
empty authority, path `//`) normalizes to `//` — urlunsplit emits no `//`
marker because the empty scheme is conditioned away — and normalizing
again yields the empty string. -/
theorem C6_counterexample :
    normalize_url (normalize_url (toL "////")) ≠ normalize_url (toL "////") ∧
    '#' ∉ toL "////" ∧
    normalize_url (toL "////") = toL "//" ∧
    normalize_url (toL "//") = [] :=
  ⟨by decide, by decide, by decide, by decide⟩

/-- C6 (amended): `normalize_url` is idempotent on every URL whose parse
yields a nonempty authority or a path not beginning with `//` (in
particular on every URL the crawler stores), it strips the fragment —
`normalize_url "https://x.com/a#sec" = "https://x.com/a"` — and returns
the input unchanged on a parse failure; but it is not idempotent in
general (the counterexample's `////` degrades to `//` and then to the
empty string) and not purely fragment stripping (the scheme is also
lowercased). -/
theorem C6_normalize_url :
    (∀ (u : LC) (r : UrlSplit), urlsplit u = some r →
      ¬ (r.netloc = [] ∧ r.path.take 2 = ['/', '/']) →
      normalize_url (normalize_url u) = normalize_url u) ∧
    normalize_url (toL "https://x.com/a#sec") = toL "https://x.com/a" ∧
    (∀ u : LC, urlsplit u = none → normalize_url u = u) := by
  refine ⟨fun u r h hside => normalize_url_idem_cond h hside, by decide, ?_⟩
  intro u hu
  unfold normalize_url
  rw [hu]

/-- C6 witness: conditional idempotence applied at a concrete URL whose
normalization is not the identity (the scheme is lowercased and the
fragment stripped), discharging the parse equation and the side condition
by computation. -/
theorem C6_witness :
    normalize_url (normalize_url (toL "HTTP://x.com/a#s")) =
      normalize_url (toL "HTTP://x.com/a#s") :=
  C6_normalize_url.1 (toL "HTTP://x.com/a#s")
    ⟨toL "http", toL "x.com", toL "/a", [], toL "s"⟩ (by decide) (by decide)

/-- C7: on `<h1>Widgets</h1><p>Desc.</p><h3>Gadget</h3><p>Sub.</p>` the
heading-hierarchy extractor yields exactly one module, `Widgets`, with
description `Desc.` scraped from the trailing paragraph, and the deeper
`h3` heading attached as the submodule `Gadget ↦ Sub.`. -/
theorem C7_heading_example :
    extract_modules_from_headings c7body =
      [⟨toL "Widgets", toL "Desc.", [(toL "Gadget", toL "Sub.")]⟩] := by decide

/-- C10: in the heading pass, headings deeper than level 2 that occur
before any level-≤2 heading are discarded entirely — the walk's state is
unchanged by such a prefix — and consequently a document whose headings
are all deeper than level 2 yields no modules at all. -/
theorem C10_deep_headings_discarded :
    (∀ (pre rest : List (Node × List Node)), (∀ o ∈ pre, 2 < headingLevel o.1) →
      (pre ++ rest).foldl headStep ⟨[], none, []⟩ = rest.foldl headStep ⟨[], none, []⟩) ∧
    (∀ content : Node, (∀ o ∈ headingOccs content, 2 < headingLevel o.1) →
      extract_modules_from_headings content = []) := by
  refine ⟨headFold_skips_deep, ?_⟩
  intro content hall
  unfold extract_modules_from_headings
  have h := headFold_skips_deep (headingOccs content) [] hall
  rw [List.append_nil] at h
  rw [h]
  rfl

/-- C10 witness: the all-deep-headings document produces no modules. -/
theorem C10_witness : extract_modules_from_headings c10body = [] :=
  C10_deep_headings_discarded.2 c10body (by decide)

/-- C8: for every valid start URL whose page fetch succeeds, a crawl with
`max_pages = 1` returns exactly one stored page, regardless of the link
oracle (how many same-domain links the page contains), the depth limit,
the worker count (≥ 1) and the loop fuel (≥ 1): once the single page is
stored, no discovered link is enqueued and the loop stops. -/
theorem C8_crawl_cap_one :
    ∀ (fetch : LC → Option LC) (linksOf : LC → LC → List LC) (cfg : CrawlCfg)
      (fuel : Nat) (start : LC) (h : LC),
      cfg.maxPages = 1 → 1 ≤ cfg.maxWorkers → 1 ≤ fuel →
      is_valid_url start = true → fetch (normalize_url start) = some h → h ≠ [] →
      (crawl_parallel fetch linksOf cfg fuel start).length = 1 := by
  intro fetch linksOf cfg fuel start h hmp hmw hfuel hvalid hfetch hne
  obtain ⟨f, rfl⟩ : ∃ f, fuel = f + 1 := ⟨fuel - 1, by omega⟩
  obtain ⟨w, hw⟩ : ∃ w, cfg.maxWorkers = w + 1 := ⟨cfg.maxWorkers - 1, by omega⟩
  unfold crawl_parallel
  rw [if_pos hvalid]
  unfold crawl_loop
  rw [if_neg (by
    intro hcon
    rcases hcon with hq | hp
    · exact List.noConfusion hq
    · rw [hmp] at hp
      simp at hp)]
  have hbatch : crawlBatch fetch linksOf cfg ⟨[], [], [(normalize_url start, 0)]⟩ =
      ⟨[normalize_url start], [(normalize_url start, h)], []⟩ := by
    unfold crawlBatch
    rw [hw]
    simp only [List.take_succ_cons, List.take_nil, List.drop_succ_cons, List.drop_nil,
      List.foldl_cons, List.foldl_nil]
    unfold process_url
    rw [if_neg (by
      intro hcon
      rcases hcon with hd | hv
      · exact absurd hd (by omega)
      · simp at hv)]
    simp only [hfetch]
    rw [if_neg hne]
    unfold handleResult
    simp only
    by_cases hdep : 0 + 1 ≤ cfg.maxDepth
    · rw [if_pos hdep]
      exact enqueue_fold_noop cfg 1 (linksOf (normalize_url start) h) _ (by
        show ¬ (dictInsert [] (normalize_url start) h).length < cfg.maxPages
        rw [hmp]
        simp [dictInsert])
    · rw [if_neg hdep]
      rfl
  rw [hbatch, crawl_loop_empty_queue fetch linksOf cfg f _ rfl]
  rfl

/-- C8 witness: a concrete crawl of a one-page site with two outgoing
links stores exactly one page. -/
theorem C8_witness :
    (crawl_parallel
        (fun u => if u = toL "http://a.com/" then some (toL "<html>x</html>") else none)
        (fun _ _ => [toL "http://a.com/b", toL "http://a.com/c"])
        ⟨1, 1, 10⟩ 5 (toL "http://a.com/")).length = 1 :=
  C8_crawl_cap_one
    (fun u => if u = toL "http://a.com/" then some (toL "<html>x</html>") else none)
    (fun _ _ => [toL "http://a.com/b", toL "http://a.com/c"])
    ⟨1, 1, 10⟩ 5 (toL "http://a.com/") (toL "<html>x</html>")
    rfl (by decide) (by decide) (by decide) (by decide) (by decide)

